import Mathlib

/-!
# JSON graph export of a ninja build graph

A shallow embedding of `src/json_graph_tool.cc`, `src/json_graph_tool.h`,
`src/json_writer.cc` and `src/json_writer.h`.

* `Node*` and `Edge*` are handles (`Nat`); a null `Edge*` is `none`.
* `std::set<T*>` is a duplicate-free `List Nat` (only `insert`, `erase`,
  `clear` and membership tests are used by the code, never iteration).
* `std::map<Edge*, int>` is a function `Nat → Option Int` (only `count`,
  `find`, `operator[]` are used by the code, never iteration).
* C++ `int` is `Int`: the counters only count edges of the graph and signed
  overflow has no defined wrapping behaviour in C++.
* Recursion is bounded by a fuel argument that counts the call depth; running
  out of fuel is the fault `OutOfFuel`.
-/

namespace Ninja

/-- Modelled from the spec: the build-graph model (`graph.h`, with `Node` and
`Edge`) is not among the sources; this record is the collaborator interface of
spec section 6 (`node.path()`, `node.in_edge()`, `edge.inputs_`,
`edge.outputs_`, `edge.is_phony()`, `edge.rule().name()`,
`edge.EvaluateCommand()`, `edge.GetBinding(name)`,
`edge.GetUnescapedRspfile()`), read through handles.  `edge_count` bounds the
handles of the edges of the (finite) graph. -/
structure Graph where
  path : Nat → String
  in_edge : Nat → Option Nat
  inputs_ : Nat → List Nat
  outputs_ : Nat → List Nat
  is_phony : Nat → Bool
  rule_name : Nat → String
  EvaluateCommand : Nat → String
  GetBinding : Nat → String → String
  GetUnescapedRspfile : Nat → String
  edge_count : Nat

/-- The graph is finite: every producing edge is one of the `edge_count`
edges of the graph. -/
def Graph.WellFormed (g : Graph) : Prop :=
  ∀ n e, g.in_edge n = some e → e < g.edge_count

/-- Ways in which a run does not return normally. -/
inductive Fault where
  | OutOfFuel
  | NullDeref
  | Exit (msg : String)
  deriving DecidableEq, Repr

deriving instance DecidableEq for Except

/-! ## Phony resolution (json_graph_tool.cc, lines 75-114) -/

/-- `FindNonPhonyDepsFromNodeRecursive(from, result, added)`, lines 100-114.
The state is the pair `(result, added)` of the two reference parameters.  The
call `FindNonPhonyDepsRecursive(in, result, added)` of line 110 is the loop of
lines 84-86 over the inputs of `in`, written here as a fold so that the
recursion is structural in the fuel. -/
def FindNonPhonyDepsFromNodeRecursive (g : Graph) :
    Nat → Nat → List Nat × List Nat → Except Fault (List Nat × List Nat)
  | 0, _, _ => .error .OutOfFuel
  | fuel + 1, node, (result, added) =>
    match g.in_edge node with
    | none => .ok (result, added)
    | some e =>
      if e ∈ added then .ok (result, added)
      else
        if g.is_phony e then
          (g.inputs_ e).foldlM
            (fun st i => FindNonPhonyDepsFromNodeRecursive g fuel i st)
            (result, added.insert e)
        else .ok (result ++ [e], added.insert e)

/-- `FindNonPhonyDepsRecursive(edge, result, added)`, lines 83-87. -/
def FindNonPhonyDepsRecursive (g : Graph) (fuel : Nat) (edge : Nat)
    (st : List Nat × List Nat) : Except Fault (List Nat × List Nat) :=
  (g.inputs_ edge).foldlM
    (fun st i => FindNonPhonyDepsFromNodeRecursive g fuel i st) st

/-- `FindNonPhonyDeps(edge)`, lines 75-80.  The call depth never exceeds the
number of edges plus one (`FindNonPhonyDeps_total`). -/
def FindNonPhonyDeps (g : Graph) (edge : Nat) : Except Fault (List Nat) :=
  match FindNonPhonyDepsRecursive g (g.edge_count + 1) edge ([], []) with
  | .error f => .error f
  | .ok (result, _) => .ok result

/-- `CollectNonPhonyInputs(candidate_input, inputs, visited)`, lines 182-199.
The state is the pair `(inputs, visited)`. -/
def CollectNonPhonyInputs (g : Graph) :
    Nat → Nat → List Nat × List Nat → Except Fault (List Nat × List Nat)
  | 0, _, _ => .error .OutOfFuel
  | fuel + 1, candidate_input, (inputs, visited) =>
    if candidate_input ∈ visited then .ok (inputs, visited)
    else
      match g.in_edge candidate_input with
      | none => .ok (inputs ++ [candidate_input], visited.insert candidate_input)
      | some in_edge =>
        if g.is_phony in_edge then
          (g.inputs_ in_edge).foldlM
            (fun st i => CollectNonPhonyInputs g fuel i st) (inputs, visited)
        else .ok (inputs ++ [candidate_input], visited.insert candidate_input)

/-! ## The export session (json_graph_tool.h, json_graph_tool.cc lines 26-60) -/

/-- The members of `struct JsonGraphTool` (json_graph_tool.h, lines 32-44). -/
structure JsonGraphTool where
  root_nodes_ : List Nat
  edge_idxs_ : Nat → Option Int
  visited_edges_ : List Nat
  edges_ : List Nat
  last_edge_idx_ : Int
  build_dir_ : String

/-- The constructor `JsonGraphTool::JsonGraphTool(build_dir)`, lines 23-26 of
the header: the containers start empty and `last_edge_idx_ = 0`. -/
def JsonGraphTool.new (build_dir : String) : JsonGraphTool :=
  { root_nodes_ := [], edge_idxs_ := fun _ => none, visited_edges_ := [],
    edges_ := [], last_edge_idx_ := 0, build_dir_ := build_dir }

/-- The loop of lines 49-53 of `TopoAddEdge`: `f` is the recursive call; the
result is `1` when a call returned non-zero (line 51, the loop is left at
once) and `0` when the loop ran to its end. -/
def TopoAddDeps (f : Nat → JsonGraphTool → Except Fault (Int × JsonGraphTool)) :
    List Nat → JsonGraphTool → Except Fault (Int × JsonGraphTool)
  | [], s => .ok (0, s)
  | d :: ds, s =>
    match f d s with
    | .error e => .error e
    | .ok (r, s1) => if r ≠ 0 then .ok (1, s1) else TopoAddDeps f ds s1

/-- `JsonGraphTool::TopoAddEdge(edge)`, lines 37-60, for a non-null `edge`.
Returns the `int` result together with the session after the call. -/
def TopoAddEdge (g : Graph) :
    Nat → Nat → JsonGraphTool → Except Fault (Int × JsonGraphTool)
  | 0, _, _ => .error .OutOfFuel
  | fuel + 1, edge, s =>
    if (s.edge_idxs_ edge).isSome then .ok (0, s)
    else if edge ∈ s.visited_edges_ then .ok (1, s)
    else
      match FindNonPhonyDeps g edge with
      | .error e => .error e
      | .ok deps =>
        match TopoAddDeps (fun d t => TopoAddEdge g fuel d t) deps
            { s with visited_edges_ := s.visited_edges_.insert edge } with
        | .error e => .error e
        | .ok (r, s1) =>
          if r ≠ 0 then .ok (1, s1)
          else
            let idx := s1.last_edge_idx_ + 1
            .ok (0, { s1 with
              visited_edges_ := s1.visited_edges_.erase edge
              last_edge_idx_ := idx
              edge_idxs_ := fun k => if k = edge then some idx else s1.edge_idxs_ k
              edges_ := s1.edges_ ++ [edge] })

/-- `JsonGraphTool::AddRootTarget(node)`, lines 26-33, returning the cycle
signal of `TopoAddEdge` (which the source discards; `0` when line 31 is not
reached) with the session after the call.  A node without producing edge has
`in_edge() == nullptr`: no null key is ever stored in `edge_idxs_`, so line 31
runs and line 46 reads `edge->inputs_` through the null pointer. -/
def AddRootTargetSignal (g : Graph) (s : JsonGraphTool) (node : Nat) :
    Except Fault (Int × JsonGraphTool) :=
  let s1 := { s with root_nodes_ := s.root_nodes_ ++ [node] }
  match g.in_edge node with
  | none => .error .NullDeref
  | some e =>
    if (s1.edge_idxs_ e).isSome then .ok (0, s1)
    else TopoAddEdge g (g.edge_count + 1) e { s1 with visited_edges_ := [] }

/-- `JsonGraphTool::AddRootTarget(node)`, lines 26-33: a `void` function, the
result of `TopoAddEdge` is dropped. -/
def AddRootTarget (g : Graph) (s : JsonGraphTool) (node : Nat) :
    Except Fault JsonGraphTool :=
  match AddRootTargetSignal g s node with
  | .error e => .error e
  | .ok (_, s1) => .ok s1

/-- The sessions reached from a fresh `JsonGraphTool` by `AddRootTarget` calls
that return. -/
inductive Reachable (g : Graph) : JsonGraphTool → Prop where
  | init (build_dir : String) : Reachable g (JsonGraphTool.new build_dir)
  | step (s s1 : JsonGraphTool) (node : Nat) :
      Reachable g s → AddRootTarget g s node = .ok s1 → Reachable g s1

/-- Runs `AddRootTarget` on the nodes of a list in order, starting from a
fresh session. -/
def AddRootTargets (g : Graph) (build_dir : String) (nodes : List Nat) :
    Except Fault JsonGraphTool :=
  nodes.foldlM (fun s n => AddRootTarget g s n) (JsonGraphTool.new build_dir)

/-! ## The streaming writer (json_writer.h, json_writer.cc) -/

/-- `JsonWriter::EscapeJson(s)`, json_writer.cc lines 4-16.  A `std::string`
is a byte string; the four characters of the `switch` are ASCII, so the
character-wise reading agrees with the byte-wise one on UTF-8 text. -/
def EscapeJson (s : String) : String :=
  s.data.foldl
    (fun o c =>
      if c = '\\' then o ++ "\\\\"
      else if c = '"' then o ++ "\\\""
      else if c = '\r' then o ++ "\\r"
      else if c = '\n' then o ++ "\\n"
      else o.push c)
    ""

/-- The text `fprintf` prints for a `%s` argument `s.c_str()`: the characters
before the first NUL. -/
def c_str (s : String) : String :=
  String.mk (s.data.takeWhile (fun c => c != Char.ofNat 0))

/-- The members of `struct JsonWriter` (json_writer.h, lines 55-56); `stream_`
is the text written to the stream so far.  `tabs_` is an `int` that starts at
0 and is only decremented when positive. -/
structure JsonWriter where
  stream_ : String
  tabs_ : Nat

/-- The constructor `JsonWriter(stream)`, json_writer.h lines 27-30. -/
def JsonWriter.new : JsonWriter := { stream_ := "", tabs_ := 0 }

/-- Writes text to the stream (`fprintf`, `fputc`). -/
def JsonWriter.put (jw : JsonWriter) (text : String) : JsonWriter :=
  { jw with stream_ := jw.stream_ ++ text }

/-- `JsonWriter::Tabulate()`, lines 18-24. -/
def JsonWriter.Tabulate (jw : JsonWriter) : JsonWriter :=
  jw.put (String.mk (List.replicate (2 * jw.tabs_) ' '))

/-- The common prologue `if(continued) fprintf(stream_, ",\n"); Tabulate();`. -/
def JsonWriter.separate (jw : JsonWriter) (continued : Bool) : JsonWriter :=
  (if continued then jw.put ",\n" else jw).Tabulate

/-- `JsonWriter::StartObject(continued)`, lines 27-34. -/
def JsonWriter.StartObject (jw : JsonWriter) (continued : Bool) : JsonWriter :=
  let jw := (jw.separate continued).put "\x7b\n"
  { jw with tabs_ := jw.tabs_ + 1 }

/-- `JsonWriter::StringProperty(property, value, continued)`, lines 37-43. -/
def JsonWriter.StringProperty (jw : JsonWriter) (property value : String)
    (continued : Bool) : JsonWriter :=
  (jw.separate continued).put
    ("\"" ++ c_str property ++ "\": \"" ++ c_str (EscapeJson value) ++ "\"")

/-- `JsonWriter::BoolProperty(property, value, continued)`, lines 45-51. -/
def JsonWriter.BoolProperty (jw : JsonWriter) (property : String) (value : Bool)
    (continued : Bool) : JsonWriter :=
  (jw.separate continued).put
    ("\"" ++ c_str property ++ "\": " ++ (if value then "true" else "false"))

/-- `JsonWriter::String(s, continued)`, lines 53-59 (named `String_` because
`String` is Lean's string type). -/
def JsonWriter.String_ (jw : JsonWriter) (s : String) (continued : Bool) :
    JsonWriter :=
  (jw.separate continued).put ("\"" ++ c_str (EscapeJson s) ++ "\"")

/-- `JsonWriter::NumericalStringProperty(property, value, continued)`, lines
61-67; `%d` prints the decimal numeral. -/
def JsonWriter.NumericalStringProperty (jw : JsonWriter) (property : String)
    (value : Int) (continued : Bool) : JsonWriter :=
  (jw.separate continued).put
    ("\"" ++ c_str property ++ "\": \"" ++ toString value ++ "\"")

/-- `JsonWriter::StartArrayProperty(name, continued)`, lines 69-76. -/
def JsonWriter.StartArrayProperty (jw : JsonWriter) (name : String)
    (continued : Bool) : JsonWriter :=
  let jw := (jw.separate continued).put ("\"" ++ c_str name ++ "\": [\n")
  { jw with tabs_ := jw.tabs_ + 1 }

/-- `JsonWriter::EndArray()`, lines 78-86. -/
def JsonWriter.EndArray (jw : JsonWriter) : JsonWriter :=
  let jw := { jw with tabs_ := if jw.tabs_ > 0 then jw.tabs_ - 1 else jw.tabs_ }
  ((jw.put "\n").Tabulate).put "]"

/-- `JsonWriter::StartObjectProperty(name, continued)`, lines 88-96. -/
def JsonWriter.StartObjectProperty (jw : JsonWriter) (name : String)
    (continued : Bool) : JsonWriter :=
  let jw := (jw.separate continued).put ("\"" ++ c_str name ++ "\": \x7b\n")
  { jw with tabs_ := jw.tabs_ + 1 }

/-- `JsonWriter::EndObject()`, lines 99-107. -/
def JsonWriter.EndObject (jw : JsonWriter) : JsonWriter :=
  let jw := { jw with tabs_ := if jw.tabs_ > 0 then jw.tabs_ - 1 else jw.tabs_ }
  ((jw.put "\n").Tabulate).put "\x7d"

/-- One call of a `JsonWriter` method with its arguments: the functions of
json_graph_tool.cc are modelled by the sequence of calls they make on `jw`. -/
inductive JsonCall where
  | StartObject (continued : Bool)
  | StartArrayProperty (name : String) (continued : Bool)
  | EndArray
  | StringProperty (property value : String) (continued : Bool)
  | BoolProperty (property : String) (value : Bool) (continued : Bool)
  | String_ (s : String) (continued : Bool)
  | NumericalStringProperty (property : String) (value : Int) (continued : Bool)
  | StartObjectProperty (name : String) (continued : Bool)
  | EndObject
  deriving DecidableEq, Repr

/-- Performs one call on the writer. -/
def JsonWriter.call (jw : JsonWriter) : JsonCall → JsonWriter
  | .StartObject c => jw.StartObject c
  | .StartArrayProperty n c => jw.StartArrayProperty n c
  | .EndArray => jw.EndArray
  | .StringProperty p v c => jw.StringProperty p v c
  | .BoolProperty p v c => jw.BoolProperty p v c
  | .String_ s c => jw.String_ s c
  | .NumericalStringProperty p v c => jw.NumericalStringProperty p v c
  | .StartObjectProperty n c => jw.StartObjectProperty n c
  | .EndObject => jw.EndObject

/-- Performs a sequence of calls on the writer, in order. -/
def JsonWriter.run (jw : JsonWriter) (calls : List JsonCall) : JsonWriter :=
  calls.foldl JsonWriter.call jw

/-! ## Serialization (json_graph_tool.cc, lines 116-294) -/

/-- The value of `edge_ids[k]` (`std::map::operator[]`) with the map after the
access: a missing key is inserted with the value 0. -/
def mapIndex (m : Nat → Option Int) (k : Nat) : Int × (Nat → Option Int) :=
  match m k with
  | some v => (v, m)
  | none => (0, fun x => if x = k then some 0 else m x)

/-- `WriteEdgeReference(jw, edge, ref_id, is_first)`, lines 141-146. -/
def WriteEdgeReference (ref_id : Int) (is_first : Bool) : List JsonCall :=
  [.StartObject (!is_first), .NumericalStringProperty "$ref" ref_id false,
   .EndObject]

/-- The loops of lines 177-179 and 211-213: one `jw->String(path, continued)`
per element, `continued` being false for the first element only. -/
def WriteStrings : List String → Bool → List JsonCall
  | [], _ => []
  | p :: ps, continued => .String_ p continued :: WriteStrings ps true

/-- The first loop of `WriteAllInputs`, lines 170-175: the `true_inputs`
vector.  The call depth of `CollectNonPhonyInputs` is bounded by the number of
phony edges plus one when the phony edges form no cycle. -/
def TrueInputs (g : Graph) (edge : Nat) : Except Fault (List Nat) :=
  match (g.inputs_ edge).foldlM
      (fun st i => CollectNonPhonyInputs g (g.edge_count + 1) i st) ([], []) with
  | .error f => .error f
  | .ok (true_inputs, _) => .ok true_inputs

/-- `WriteAllInputs(jw, edge)`, lines 169-180. -/
def WriteAllInputs (g : Graph) (edge : Nat) : Except Fault (List JsonCall) :=
  match TrueInputs g edge with
  | .error f => .error f
  | .ok true_inputs => .ok (WriteStrings (true_inputs.map g.path) false)

/-- `WriteOutputs(jw, edge)`, lines 204-220. -/
def WriteOutputs (g : Graph) (edge : Nat) : List JsonCall :=
  if g.is_phony edge then []
  else
    WriteStrings ((g.outputs_ edge).map g.path) false ++
      (if g.GetBinding edge "depfile" ≠ "" then
        [.String_ (g.GetBinding edge "depfile") (!(g.outputs_ edge).isEmpty)]
      else [])

/-- The loop of lines 236-248 of `WriteEdge` over `deps`; `is_first` is
`dep == deps.begin()`.  `exit(1)` is the fault `Exit` with the text written to
`stderr`. -/
def WriteEdgeDeps (edge_id : Int) :
    List Nat → Bool → (Nat → Option Int) →
      Except Fault (List JsonCall × (Nat → Option Int))
  | [], _, edge_ids => .ok ([], edge_ids)
  | dep :: rest, is_first, edge_ids =>
    if (edge_ids dep).isNone then .error (.Exit "Unknown edge")
    else
      let (ref_id, edge_ids) := mapIndex edge_ids dep
      if ref_id > edge_id then .error (.Exit "Wrong topo-sort")
      else
        match WriteEdgeDeps edge_id rest false edge_ids with
        | .error f => .error f
        | .ok (calls, edge_ids) =>
          .ok (WriteEdgeReference ref_id is_first ++ calls, edge_ids)

/-- `WriteEdge(jw, edge, edge_ids, is_first)`, lines 224-270: the calls made on
`jw` and the map after the call (it is passed by reference). -/
def WriteEdge (g : Graph) (edge : Nat) (edge_ids : Nat → Option Int)
    (is_first : Bool) : Except Fault (List JsonCall × (Nat → Option Int)) :=
  let (edge_id, edge_ids) := mapIndex edge_ids edge
  match FindNonPhonyDeps g edge with
  | .error f => .error f
  | .ok deps =>
    match WriteEdgeDeps edge_id deps true edge_ids with
    | .error f => .error f
    | .ok (dep_calls, edge_ids) =>
      match WriteAllInputs g edge with
      | .error f => .error f
      | .ok input_calls =>
        .ok ([.StartObject (!is_first),
              .NumericalStringProperty "$id" edge_id false,
              .StringProperty "rule" (g.rule_name edge) true,
              .StringProperty "command" (g.EvaluateCommand edge) true,
              .StartArrayProperty "dependencies" true]
            ++ dep_calls
            ++ [.EndArray, .StartArrayProperty "inputs" true]
            ++ input_calls
            ++ [.EndArray, .StartArrayProperty "outputs" true]
            ++ WriteOutputs g edge
            ++ [.EndArray]
            ++ (if g.GetUnescapedRspfile edge ≠ "" then
                  [.StartObjectProperty "responseFile" true,
                   .StringProperty "name" (g.GetUnescapedRspfile edge) false,
                   .StringProperty "content"
                     (g.GetBinding edge "rspfile_content") true,
                   .EndObject]
                else [])
            ++ [.EndObject], edge_ids)

/-- `WriteRootTarget(jw, target, edge_ids, is_first)`, lines 274-294.  For a
target without producing edge the key is the null pointer, which is stored for
no edge: `operator[]` yields 0. -/
def WriteRootTarget (g : Graph) (target : Nat) (edge_ids : Nat → Option Int)
    (is_first : Bool) : List JsonCall × (Nat → Option Int) :=
  let (ref_id, edge_ids) :=
    match g.in_edge target with
    | none => ((0 : Int), edge_ids)
    | some e => mapIndex edge_ids e
  ([.StartObject (!is_first),
    .StringProperty "name" (g.path target) false,
    .StartObjectProperty "producer_node" true,
    .NumericalStringProperty "$ref" ref_id false,
    .EndObject,
    .EndObject], edge_ids)

/-- The loop of lines 123-125 of `Flush`; `is_first` is `e == edges_.begin()`. -/
def WriteEdges (g : Graph) :
    List Nat → Bool → (Nat → Option Int) →
      Except Fault (List JsonCall × (Nat → Option Int))
  | [], _, edge_ids => .ok ([], edge_ids)
  | e :: rest, is_first, edge_ids =>
    match WriteEdge g e edge_ids is_first with
    | .error f => .error f
    | .ok (calls, edge_ids) =>
      match WriteEdges g rest false edge_ids with
      | .error f => .error f
      | .ok (more, edge_ids) => .ok (calls ++ more, edge_ids)

/-- The loop of lines 129-131 of `Flush`; `is_first` is
`t == root_nodes_.begin()`. -/
def WriteRootTargets (g : Graph) :
    List Nat → Bool → (Nat → Option Int) → List JsonCall × (Nat → Option Int)
  | [], _, edge_ids => ([], edge_ids)
  | t :: rest, is_first, edge_ids =>
    let (calls, edge_ids) := WriteRootTarget g t edge_ids is_first
    let (more, edge_ids) := WriteRootTargets g rest false edge_ids
    (calls ++ more, edge_ids)

/-- `JsonGraphTool::Flush()`, lines 116-139: the sequence of calls made on the
writer `jw`. -/
def Flush (g : Graph) (s : JsonGraphTool) : Except Fault (List JsonCall) :=
  match WriteEdges g s.edges_ true s.edge_idxs_ with
  | .error f => .error f
  | .ok (node_calls, edge_ids) =>
    .ok ([.StartObject false,
          .StartObjectProperty "Graph" false,
          .StartArrayProperty "Nodes" false]
        ++ node_calls
        ++ [.EndArray, .StartArrayProperty "Targets" true]
        ++ (WriteRootTargets g s.root_nodes_ true edge_ids).1
        ++ [.EndArray, .EndObject,
            .StringProperty "FailureReason" "" true,
            .EndObject])

/-- The text `Flush` writes to standard output. -/
def FlushText (g : Graph) (s : JsonGraphTool) : Except Fault String :=
  match Flush g s with
  | .error f => .error f
  | .ok calls => .ok (JsonWriter.new.run calls).stream_

/-! ## Specification vocabulary -/

/-- The number of edges of the graph that are not in `added`: the measure that
bounds the call depth of the phony resolution. -/
def unadded (g : Graph) (added : List Nat) : Nat :=
  (Finset.range g.edge_count \ added.toFinset).card

/-- The phony-resolved dependency relation: `Dep g a b` when `b` is in
`FindNonPhonyDeps(a)`. -/
def Dep (g : Graph) (a b : Nat) : Prop :=
  ∃ deps, FindNonPhonyDeps g a = .ok deps ∧ b ∈ deps

/-- The session invariant: the counter is the length of the final list, the
list has no duplicates, the id map numbers the list from 1, the dependencies
of every listed edge were computed, and the dependencies of an edge with an id
have strictly smaller ids. -/
structure Inv (g : Graph) (s : JsonGraphTool) : Prop where
  last : s.last_edge_idx_ = (s.edges_.length : Int)
  nodup : s.edges_.Nodup
  ids : ∀ e, s.edge_idxs_ e =
    if e ∈ s.edges_ then some ((s.edges_.indexOf e : Nat) + 1 : Int) else none
  deps_ok : ∀ a ∈ s.edges_, ∃ deps, FindNonPhonyDeps g a = .ok deps
  topo : ∀ a ia deps, s.edge_idxs_ a = some ia → FindNonPhonyDeps g a = .ok deps →
    ∀ b ∈ deps, ∃ ib, s.edge_idxs_ b = some ib ∧ ib < ia

/-- What one call `TopoAddEdge(e)` that returns `r` does to the session. -/
structure TopoPost (g : Graph) (e : Nat) (s : JsonGraphTool) (r : Int)
    (s1 : JsonGraphTool) : Prop where
  inv : Inv g s1
  roots : s1.root_nodes_ = s.root_nodes_
  ext : ∃ new, s1.edges_ = s.edges_ ++ new ∧
    ∀ x ∈ new, x ∉ s.visited_edges_ ∧ (x = e ∨ g.is_phony x = false)
  ret : r = 0 ∨ r = 1
  done : r = 0 → (s1.edge_idxs_ e).isSome ∧ s1.visited_edges_ = s.visited_edges_

/-- The session after `AddRootTarget` was called on each node of `nodes` in
order, from a fresh session (the fresh session if a call does not return). -/
def sessionAfter (g : Graph) (nodes : List Nat) : JsonGraphTool :=
  match AddRootTargets g "" nodes with
  | .ok s => s
  | .error _ => JsonGraphTool.new ""

/-! ## Concrete graphs -/

/-- The scenario of spec section 8.  Nodes: 0 `app`, 1 `objs`, 2 `obj1.o`,
3 `obj2.o`, 4 `src1.c`, 5 `src2.c`.  Edges: 0 `link` (`objs` to `app`),
1 the phony edge (`obj1.o obj2.o` to `objs`), 2 `cc1` (`src1.c` to `obj1.o`),
3 `cc2` (`src2.c` to `obj2.o`). -/
def scenarioGraph : Graph where
  path := fun n => ["app", "objs", "obj1.o", "obj2.o", "src1.c", "src2.c"].getD n ""
  in_edge := fun n => [some 0, some 1, some 2, some 3, none, none].getD n none
  inputs_ := fun e => [[1], [2, 3], [4], [5]].getD e []
  outputs_ := fun e => [[0], [1], [2], [3]].getD e []
  is_phony := fun e => e == 1
  rule_name := fun e => ["link", "phony", "cc", "cc"].getD e ""
  EvaluateCommand := fun e =>
    ["ld -o app obj1.o obj2.o", "", "cc -c src1.c", "cc -c src2.c"].getD e ""
  GetBinding := fun _ _ => ""
  GetUnescapedRspfile := fun _ => ""
  edge_count := 4

/-- Two non-phony edges that depend on each other.  Nodes: 0 `a.out`,
1 `b.out`.  Edges: 0 (`b.out` to `a.out`), 1 (`a.out` to `b.out`). -/
def cycleGraph : Graph where
  path := fun n => ["a.out", "b.out"].getD n ""
  in_edge := fun n => [some 0, some 1].getD n none
  inputs_ := fun e => [[1], [0]].getD e []
  outputs_ := fun e => [[0], [1]].getD e []
  is_phony := fun _ => false
  rule_name := fun _ => "cp"
  EvaluateCommand := fun e => ["cp b.out a.out", "cp a.out b.out"].getD e ""
  GetBinding := fun _ _ => ""
  GetUnescapedRspfile := fun _ => ""
  edge_count := 2

/-- Two phony edges that alias each other.  Nodes: 0 `a`, 1 `b`, 2 `out`.
Edges: 0 the phony edge (`b` to `a`), 1 the phony edge (`a` to `b`),
2 `touch` (`a` to `out`). -/
def phonyLoopGraph : Graph where
  path := fun n => ["a", "b", "out"].getD n ""
  in_edge := fun n => [some 0, some 1, some 2].getD n none
  inputs_ := fun e => [[1], [0], [0]].getD e []
  outputs_ := fun e => [[0], [1], [2]].getD e []
  is_phony := fun e => e == 0 || e == 1
  rule_name := fun e => ["phony", "phony", "touch"].getD e ""
  EvaluateCommand := fun e => ["", "", "touch out"].getD e ""
  GetBinding := fun _ _ => ""
  GetUnescapedRspfile := fun _ => ""
  edge_count := 3

/-! ## Definitions that follow the words of the specification -/

/-- The escape of one character in the words of spec section 4.3: backslash,
double quote, carriage return and line feed are written as a backslash
followed by a backslash, a double quote, `r` and `n`; every other character is
copied. -/
def escapeOf (c : Char) : String :=
  if c = '\\' then "\\\\"
  else if c = '"' then "\\\""
  else if c = '\r' then "\\r"
  else if c = '\n' then "\\n"
  else String.singleton c

/-- The elements of the `outputs` array of an edge in the words of spec
section 6: none for a phony action, otherwise the output paths in declaration
order, followed by the depfile path when a depfile is bound. -/
def outputElements (g : Graph) (edge : Nat) : List String :=
  if g.is_phony edge then []
  else
    (g.outputs_ edge).map g.path ++
      (if g.GetBinding edge "depfile" = "" then [] else [g.GetBinding edge "depfile"])

/-- The reference written for a root target: the id of its producing edge, 0
when the edge has none (or the target has no producing edge). -/
def rootRef (g : Graph) (edge_ids : Nat → Option Int) (target : Nat) : Int :=
  match g.in_edge target with
  | none => 0
  | some e => (edge_ids e).getD 0

/-- The calls for the entries of the `Targets` array of spec section 6, one
entry per `(name, reference)` pair, in order; `is_first` tells whether the
first entry of the list is the first entry of the array. -/
def targetEntries : List (String × Int) → Bool → List JsonCall
  | [], _ => []
  | (name, ref) :: rest, is_first =>
    [.StartObject (!is_first),
     .StringProperty "name" name false,
     .StartObjectProperty "producer_node" true,
     .NumericalStringProperty "$ref" ref false,
     .EndObject,
     .EndObject] ++ targetEntries rest false

/-! ## More concrete graphs -/

/-- An edge with a response file and a depfile, and an edge with a depfile
and no outputs.  Nodes: 0 `lib.a`, 1 `a.o`.  Edges: 0 `ar` (`a.o` to `lib.a`,
depfile `lib.d`, response file `lib.rsp` with content `a.o`), 1 `scan` (input
`a.o`, no outputs, depfile `scan.d`). -/
def rspGraph : Graph where
  path := fun n => ["lib.a", "a.o"].getD n ""
  in_edge := fun n => [some 0, none].getD n none
  inputs_ := fun e => [[1], [1]].getD e []
  outputs_ := fun e => [[0], []].getD e []
  is_phony := fun _ => false
  rule_name := fun e => ["ar", "scan"].getD e ""
  EvaluateCommand := fun e => ["ar rcs lib.a @lib.rsp", "scan a.o"].getD e ""
  GetBinding := fun e name =>
    if name = "depfile" then ["lib.d", "scan.d"].getD e ""
    else if name = "rspfile_content" then ["a.o", ""].getD e ""
    else ""
  GetUnescapedRspfile := fun e => ["lib.rsp", ""].getD e ""
  edge_count := 2

/-! ## Cycles, naive expansions and their invariants -/

/-- A cycle of the phony-resolved dependency relation is reachable from `e`:
`e` reaches some `c` in zero or more steps and `c` reaches itself in one or
more steps. -/
def CycleReachable (g : Graph) (e : Nat) : Prop :=
  ∃ c, Relation.ReflTransGen (Dep g) e c ∧ Relation.TransGen (Dep g) c c

/-- One step between phony edges: an input of the phony edge `p` is produced
by the phony edge `q`. -/
def PhonyStep (g : Graph) (p q : Nat) : Prop :=
  g.is_phony p = true ∧ g.is_phony q = true ∧ ∃ m ∈ g.inputs_ p, g.in_edge m = some q

/-- The phony edges form no cycle. -/
def PhonyAcyclic (g : Graph) : Prop :=
  ∀ p, ¬ Relation.TransGen (PhonyStep g) p p

/-- Appends to `acc` the elements of `l` that are not yet listed, in order:
the first occurrence wins. -/
def dedupInto (acc l : List Nat) : List Nat :=
  l.foldl (fun acc x => if x ∈ acc then acc else acc ++ [x]) acc

/-- First-occurrence deduplication. -/
def dedupFirst (l : List Nat) : List Nat :=
  dedupInto [] l

/-- The concatenation of `f m` over the elements `m` of a list, in order. -/
def concatMapM (f : Nat → Except Fault (List Nat)) : List Nat → Except Fault (List Nat)
  | [] => .ok []
  | m :: ms =>
    match f m with
    | .error e => .error e
    | .ok l =>
      match concatMapM f ms with
      | .error e => .error e
      | .ok rest => .ok (l ++ rest)

/-- The naive expansion of a node to nodes in the words of spec section 4.1
(`ResolveFileInputs`), without a seen set: when the producing edge of the node
is phony, the concatenation of the expansions of that edge's inputs in
declaration order; otherwise (no producer, or a non-phony producer) the node
itself.  The fuel bounds the depth of the expansion. -/
def expandInputs (g : Graph) : Nat → Nat → Except Fault (List Nat)
  | 0, _ => .error .OutOfFuel
  | fuel + 1, node =>
    match g.in_edge node with
    | none => .ok [node]
    | some p =>
      if g.is_phony p then
        concatMapM (fun i => expandInputs g fuel i) (g.inputs_ p)
      else .ok [node]

/-- The naive expansion of a node to edges in the words of spec section 4.1
(`ResolveActionDependencies`), without a seen set: nothing when the node has
no producing edge, the producing edge when it is not phony, and the
concatenation of the expansions of that edge's inputs in declaration order
when it is phony.  The fuel bounds the depth of the expansion. -/
def expandDeps (g : Graph) : Nat → Nat → Except Fault (List Nat)
  | 0, _ => .error .OutOfFuel
  | fuel + 1, node =>
    match g.in_edge node with
    | none => .ok []
    | some p =>
      if g.is_phony p then
        concatMapM (fun i => expandDeps g fuel i) (g.inputs_ p)
      else .ok [p]

/-- The concatenation of `expandInputs` over the inputs of an edge, in
declaration order. -/
def naiveInputs (g : Graph) (edge : Nat) : Except Fault (List Nat) :=
  concatMapM (fun i => expandInputs g (g.edge_count + 1) i) (g.inputs_ edge)

/-- The concatenation of `expandDeps` over the inputs of an edge, in
declaration order. -/
def naiveDeps (g : Graph) (edge : Nat) : Except Fault (List Nat) :=
  concatMapM (fun i => expandDeps g (g.edge_count + 1) i) (g.inputs_ edge)

/-- A graph with nested phony aliases and shared inputs.  Nodes: 0 `app`,
1 `all` , 2 `objs`, 3 `a.o`, 4 `b.o`, 5 `a.c`, 6 `common.h`.  Edges: 0 `link`
(`all objs a.o common.h` to `app`), 1 phony (`objs b.o common.h` to `all`),
2 phony (`a.o b.o` to `objs`), 3 `cc` (`a.c common.h` to `a.o`), 4 `cc`
(`common.h` to `b.o`). -/
def aliasGraph : Graph where
  path := fun n => ["app", "all", "objs", "a.o", "b.o", "a.c", "common.h"].getD n ""
  in_edge := fun n => [some 0, some 1, some 2, some 3, some 4, none, none].getD n none
  inputs_ := fun e => [[1, 2, 3, 6], [2, 4, 6], [3, 4], [5, 6], [6]].getD e []
  outputs_ := fun e => [[0], [1], [2], [3], [4]].getD e []
  is_phony := fun e => e == 1 || e == 2
  rule_name := fun e => ["link", "phony", "phony", "cc", "cc"].getD e ""
  EvaluateCommand := fun e => ["ld", "", "", "cc a.c", "cc b.c"].getD e ""
  GetBinding := fun _ _ => ""
  GetUnescapedRspfile := fun _ => ""
  edge_count := 5

/-- The invariant of the depth-first resolution of `FindNonPhonyDeps` against
the naive expansion: a non-phony edge is in `added` exactly when it is in
`result`, and for every phony edge of `added` that is not under resolution
(not in `anc`) the expansions of its inputs are already in `result`. -/
structure DfsInv (g : Graph) (result added anc : List Nat) : Prop where
  real : ∀ x, g.is_phony x = false → (x ∈ added ↔ x ∈ result)
  closed : ∀ q ∈ added, g.is_phony q = true → q ∉ anc →
    ∀ m ∈ g.inputs_ q, ∀ k l, expandDeps g k m = .ok l → ∀ x ∈ l, x ∈ result

/-- No phony edge of `anc` is reached from the phony producer of `n`. -/
def NoReach (g : Graph) (n : Nat) (anc : List Nat) : Prop :=
  ∀ p, g.in_edge n = some p → g.is_phony p = true →
    ∀ a ∈ anc, ¬ Relation.ReflTransGen (PhonyStep g) p a

/-! ## The JSON grammar -/

/-- The position of a reader of JSON text between two characters (RFC 8259):
before a value, right after an opening bracket or brace, before a member name,
before the colon, after a complete value, inside a string literal (a member
name when `is_key`), inside a literal name, and inside a number. -/
inductive JsonPos where
  | value
  | valueOrEnd
  | keyOrEnd
  | key
  | colon
  | after
  | str (is_key : Bool)
  | esc (is_key : Bool)
  | hex (is_key : Bool) (left : Nat)
  | lit (rest : List Char)
  | minus
  | zero
  | int
  | fracStart
  | frac
  | expStart
  | expSign
  | exp
  deriving DecidableEq, Repr

/-- The whitespace of JSON: space, line feed, carriage return, tab. -/
def isWs (c : Char) : Bool :=
  c = ' ' || c = '\n' || c = '\r' || c = '\t'

/-- A decimal digit. -/
def isDigit (c : Char) : Bool :=
  48 ≤ c.toNat && c.toNat ≤ 57

/-- A hexadecimal digit. -/
def isHex (c : Char) : Bool :=
  isDigit c || (65 ≤ c.toNat && c.toNat ≤ 70) || (97 ≤ c.toNat && c.toNat ≤ 102)

/-- The characters that may follow a backslash in a string literal, `u`
apart. -/
def isEscape (c : Char) : Bool :=
  c = '"' || c = '\\' || c = '/' || c = 'b' || c = 'f' || c = 'n' || c = 'r' || c = 't'

/-- Closes the innermost open container, which must be an object when
`object` and an array otherwise. -/
def closeWith (object : Bool) : List Bool → Option (JsonPos × List Bool)
  | b :: rest => if b = object then some (.after, rest) else none
  | [] => none

/-- The first character of a value.  The stack holds the open containers,
innermost first: `true` for an object, `false` for an array. -/
def startValue (stack : List Bool) (c : Char) : Option (JsonPos × List Bool) :=
  if c = '"' then some (.str false, stack)
  else if c = Char.ofNat 123 then some (.keyOrEnd, true :: stack)
  else if c = '[' then some (.valueOrEnd, false :: stack)
  else if c = 't' then some (.lit ['r', 'u', 'e'], stack)
  else if c = 'f' then some (.lit ['a', 'l', 's', 'e'], stack)
  else if c = 'n' then some (.lit ['u', 'l', 'l'], stack)
  else if c = '-' then some (.minus, stack)
  else if c = '0' then some (.zero, stack)
  else if isDigit c then some (.int, stack)
  else none

/-- The character after a complete value: whitespace, a comma inside a
container (a member name must follow in an object, a value in an array), or
the closing character of the innermost container. -/
def afterValue (stack : List Bool) (c : Char) : Option (JsonPos × List Bool) :=
  if isWs c then some (.after, stack)
  else if c = ',' then
    match stack with
    | true :: _ => some (.key, stack)
    | false :: _ => some (.value, stack)
    | [] => none
  else if c = Char.ofNat 125 then closeWith true stack
  else if c = ']' then closeWith false stack
  else none

/-- One character of JSON text read at position `pos` with the open containers
`stack`; `none` when the grammar of RFC 8259 allows no such character there. -/
def jsonStep (pos : JsonPos) (stack : List Bool) (c : Char) :
    Option (JsonPos × List Bool) :=
  match pos with
  | .value => if isWs c then some (.value, stack) else startValue stack c
  | .valueOrEnd =>
    if isWs c then some (.valueOrEnd, stack)
    else if c = ']' then closeWith false stack
    else startValue stack c
  | .keyOrEnd =>
    if isWs c then some (.keyOrEnd, stack)
    else if c = '"' then some (.str true, stack)
    else if c = Char.ofNat 125 then closeWith true stack
    else none
  | .key =>
    if isWs c then some (.key, stack)
    else if c = '"' then some (.str true, stack)
    else none
  | .colon =>
    if isWs c then some (.colon, stack)
    else if c = ':' then some (.value, stack)
    else none
  | .after => afterValue stack c
  | .str k =>
    if c = '"' then some (if k then .colon else .after, stack)
    else if c = '\\' then some (.esc k, stack)
    else if c.toNat < 32 then none
    else some (.str k, stack)
  | .esc k =>
    if isEscape c then some (.str k, stack)
    else if c = 'u' then some (.hex k 4, stack)
    else none
  | .hex k left =>
    if isHex c then some (if left ≤ 1 then .str k else .hex k (left - 1), stack)
    else none
  | .lit rest =>
    match rest with
    | [] => none
    | x :: xs => if c = x then some (if xs.isEmpty then .after else .lit xs, stack) else none
  | .minus =>
    if c = '0' then some (.zero, stack)
    else if isDigit c then some (.int, stack)
    else none
  | .zero =>
    if c = '.' then some (.fracStart, stack)
    else if c = 'e' || c = 'E' then some (.expStart, stack)
    else afterValue stack c
  | .int =>
    if isDigit c then some (.int, stack)
    else if c = '.' then some (.fracStart, stack)
    else if c = 'e' || c = 'E' then some (.expStart, stack)
    else afterValue stack c
  | .fracStart => if isDigit c then some (.frac, stack) else none
  | .frac =>
    if isDigit c then some (.frac, stack)
    else if c = 'e' || c = 'E' then some (.expStart, stack)
    else afterValue stack c
  | .expStart =>
    if c = '+' || c = '-' then some (.expSign, stack)
    else if isDigit c then some (.exp, stack)
    else none
  | .expSign => if isDigit c then some (.exp, stack) else none
  | .exp => if isDigit c then some (.exp, stack) else afterValue stack c

/-- Reads the characters of a text from position `pos` with the open
containers `stack`. -/
def jsonRun : JsonPos → List Bool → List Char → Option (JsonPos × List Bool)
  | pos, stack, [] => some (pos, stack)
  | pos, stack, c :: cs =>
    match jsonStep pos stack c with
    | none => none
    | some (pos1, stack1) => jsonRun pos1 stack1 cs

/-- The text may end at this position: after a complete value or inside a
number that is complete so far. -/
def jsonEnd : JsonPos → Bool
  | .after => true
  | .zero => true
  | .int => true
  | .frac => true
  | .exp => true
  | _ => false

/-- The text is one JSON value in the grammar of RFC 8259 (whitespace around
it allowed): objects of `name: value` members and arrays of values, separated
by single commas, strings with the escapes of the grammar and no raw control
character, numbers, `true`, `false` and `null`. -/
def jsonParses (text : String) : Bool :=
  match jsonRun .value [] text.data with
  | some (pos, []) => jsonEnd pos
  | _ => false

/-! ## Well-formedness of the emitted text -/

/-- Scans a text for the bracket structure of JSON.  `stack` holds the opening
brackets that are not yet closed, `in_string` and `escaped` track string
literals (brackets and commas inside a string literal do not count), and
`after_comma` tells that the last character outside whitespace was a comma.
The scan succeeds when every closing bracket matches the innermost open one,
no closing bracket follows a comma, and at the end nothing is open. -/
def jsonScan : List Char → List Char → Bool → Bool → Bool → Bool
  | [], stack, in_string, _, _ => stack.isEmpty && !in_string
  | _ :: cs, stack, true, true, ac => jsonScan cs stack true false ac
  | c :: cs, stack, true, false, ac =>
    if c = '\\' then jsonScan cs stack true true ac
    else if c = '"' then jsonScan cs stack false false ac
    else jsonScan cs stack true false ac
  | c :: cs, stack, false, _, ac =>
    if c = '"' then jsonScan cs stack true false false
    else if c = Char.ofNat 123 || c = '[' then jsonScan cs (c :: stack) false false false
    else if c = Char.ofNat 125 then
      !ac && stack.head? == some (Char.ofNat 123) && jsonScan cs stack.tail false false false
    else if c = ']' then
      !ac && stack.head? == some '[' && jsonScan cs stack.tail false false false
    else if c = ',' then jsonScan cs stack false false true
    else if c = ' ' || c = '\n' || c = '\r' || c = '\t' then jsonScan cs stack false false ac
    else jsonScan cs stack false false false

theorem foldlM_except_cons {σ α : Type} (f : σ → α → Except Fault σ) (a : α)
    (l : List α) (st : σ) :
    (a :: l).foldlM f st =
      match f st a with
      | .error e => .error e
      | .ok st1 => l.foldlM f st1 := by
  rw [List.foldlM_cons]
  cases f st a <;> rfl

theorem foldlM_except_nil {σ α : Type} (f : σ → α → Except Fault σ) (st : σ) :
    ([] : List α).foldlM f st = .ok st := rfl

theorem unadded_mono (g : Graph) {a b : List Nat} (h : a ⊆ b) :
    unadded g b ≤ unadded g a := by
  unfold unadded
  apply Finset.card_le_card
  apply Finset.sdiff_subset_sdiff (Finset.Subset.refl _)
  intro x hx
  simp only [List.mem_toFinset] at hx ⊢
  exact h hx

theorem unadded_insert_lt (g : Graph) {a : List Nat} {e : Nat}
    (he : e < g.edge_count) (hn : e ∉ a) :
    unadded g (a.insert e) < unadded g a := by
  unfold unadded
  apply Finset.card_lt_card
  rw [Finset.ssubset_iff_of_subset]
  · refine ⟨e, ?_, ?_⟩
    · simp [he, hn]
    · simp
  · apply Finset.sdiff_subset_sdiff (Finset.Subset.refl _)
    intro x hx
    simp only [List.mem_toFinset] at hx ⊢
    exact List.mem_insert_iff.mpr (Or.inr hx)

theorem unadded_le (g : Graph) (a : List Nat) : unadded g a ≤ g.edge_count := by
  unfold unadded
  calc (Finset.range g.edge_count \ a.toFinset).card
      ≤ (Finset.range g.edge_count).card := Finset.card_le_card Finset.sdiff_subset
    _ = g.edge_count := Finset.card_range _

theorem FromNode_succ (g : Graph) (fuel node : Nat) (result added : List Nat) :
    FindNonPhonyDepsFromNodeRecursive g (fuel + 1) node (result, added) =
      match g.in_edge node with
      | none => .ok (result, added)
      | some e =>
        if e ∈ added then .ok (result, added)
        else
          if g.is_phony e then
            FindNonPhonyDepsRecursive g fuel e (result, added.insert e)
          else .ok (result ++ [e], added.insert e) := by
  rfl

theorem FromNode_total (g : Graph) (hg : g.WellFormed) :
    ∀ fuel node result added, unadded g added < fuel →
      ∃ st, FindNonPhonyDepsFromNodeRecursive g fuel node (result, added) = .ok st
        ∧ added ⊆ st.2 := by
  intro fuel
  induction fuel with
  | zero => intro node result added h; omega
  | succ fuel ih =>
    intro node result added h
    rw [FromNode_succ]
    cases hin : g.in_edge node with
    | none => exact ⟨_, rfl, List.Subset.refl _⟩
    | some e =>
      simp only
      by_cases hmem : e ∈ added
      · rw [if_pos hmem]; exact ⟨_, rfl, List.Subset.refl _⟩
      · rw [if_neg hmem]
        have hsub : added ⊆ added.insert e := fun x hx =>
          List.mem_insert_iff.mpr (Or.inr hx)
        cases hph : g.is_phony e with
        | false => exact ⟨_, rfl, hsub⟩
        | true =>
          simp only [if_true]
          have hlt : unadded g (added.insert e) < fuel := by
            have := unadded_insert_lt g (hg node e hin) hmem
            omega
          have key : ∀ (l : List Nat) (st : List Nat × List Nat),
              unadded g st.2 < fuel →
              ∃ st1, l.foldlM
                (fun st i => FindNonPhonyDepsFromNodeRecursive g fuel i st) st
                  = .ok st1 ∧ st.2 ⊆ st1.2 := by
            intro l
            induction l with
            | nil => intro st _; exact ⟨st, rfl, List.Subset.refl _⟩
            | cons i l ihl =>
              intro st hst
              obtain ⟨st1, h1, hs1⟩ := ih i st.1 st.2 hst
              rw [foldlM_except_cons]
              simp only [Prod.mk.eta] at h1
              rw [h1]
              simp only
              have : unadded g st1.2 < fuel :=
                lt_of_le_of_lt (unadded_mono g hs1) hst
              obtain ⟨st2, h2, hs2⟩ := ihl st1 this
              exact ⟨st2, h2, fun x hx => hs2 (hs1 hx)⟩
          obtain ⟨st1, h1, hs1⟩ := key (g.inputs_ e) (result, added.insert e) hlt
          exact ⟨st1, h1, fun x hx => hs1 (hsub hx)⟩

theorem FindNonPhonyDepsRecursive_total (g : Graph) (hg : g.WellFormed)
    (fuel edge : Nat) (st : List Nat × List Nat) (h : unadded g st.2 < fuel) :
    ∃ st1, FindNonPhonyDepsRecursive g fuel edge st = .ok st1 := by
  unfold FindNonPhonyDepsRecursive
  have key : ∀ (l : List Nat) (st : List Nat × List Nat),
      unadded g st.2 < fuel →
      ∃ st1, l.foldlM
        (fun st i => FindNonPhonyDepsFromNodeRecursive g fuel i st) st
          = .ok st1 := by
    intro l
    induction l with
    | nil => intro st _; exact ⟨st, rfl⟩
    | cons i l ihl =>
      intro st hst
      obtain ⟨st1, h1, hs1⟩ := FromNode_total g hg fuel i st.1 st.2 hst
      rw [foldlM_except_cons]
      simp only [Prod.mk.eta] at h1
      rw [h1]
      exact ihl st1 (lt_of_le_of_lt (unadded_mono g hs1) hst)
  exact key _ st h

theorem foldlM_except_inv {σ α : Type} (f : σ → α → Except Fault σ) (P : σ → Prop)
    (hf : ∀ st a st1, P st → f st a = .ok st1 → P st1) :
    ∀ (l : List α) (st st1 : σ), P st → l.foldlM f st = .ok st1 → P st1 := by
  intro l
  induction l with
  | nil =>
    intro st st1 hP h
    rw [foldlM_except_nil] at h
    cases h
    exact hP
  | cons a l ih =>
    intro st st1 hP h
    rw [foldlM_except_cons] at h
    cases hfa : f st a with
    | error e => rw [hfa] at h; cases h
    | ok st2 =>
      rw [hfa] at h
      exact ih st2 st1 (hf st a st2 hP hfa) h

theorem FromNode_nonphony (g : Graph) :
    ∀ fuel node (st st1 : List Nat × List Nat),
      (∀ x ∈ st.1, g.is_phony x = false) →
      FindNonPhonyDepsFromNodeRecursive g fuel node st = .ok st1 →
      ∀ x ∈ st1.1, g.is_phony x = false := by
  intro fuel
  induction fuel with
  | zero => intro node st st1 _ h; cases h
  | succ fuel ih =>
    intro node st st1 hP h
    obtain ⟨result, added⟩ := st
    rw [FromNode_succ] at h
    cases hin : g.in_edge node with
    | none => rw [hin] at h; cases h; exact hP
    | some e =>
      rw [hin] at h
      simp only at h
      by_cases hmem : e ∈ added
      · rw [if_pos hmem] at h; cases h; exact hP
      · rw [if_neg hmem] at h
        cases hph : g.is_phony e with
        | false =>
          rw [hph] at h
          simp only [Bool.false_eq_true, if_false] at h
          cases h
          intro x hx
          rcases List.mem_append.mp hx with hx | hx
          · exact hP x hx
          · rw [List.mem_singleton] at hx; rw [hx]; exact hph
        | true =>
          rw [hph] at h
          simp only [if_true] at h
          exact foldlM_except_inv _ (fun st => ∀ x ∈ st.1, g.is_phony x = false)
            (fun st a st1 hst hf => ih a st st1 hst hf) _ _ _ hP h

theorem FindNonPhonyDeps_nonphony (g : Graph) (e : Nat) (deps : List Nat)
    (h : FindNonPhonyDeps g e = .ok deps) : ∀ d ∈ deps, g.is_phony d = false := by
  unfold FindNonPhonyDeps at h
  cases hr : FindNonPhonyDepsRecursive g (g.edge_count + 1) e ([], []) with
  | error f => rw [hr] at h; cases h
  | ok st =>
    rw [hr] at h
    obtain ⟨result, added⟩ := st
    cases h
    unfold FindNonPhonyDepsRecursive at hr
    exact foldlM_except_inv _ (fun st => ∀ x ∈ st.1, g.is_phony x = false)
      (fun st a st1 hst hf => FromNode_nonphony g _ a st st1 hst hf) _ _ _
      (by intro x hx; cases hx) hr

theorem Inv_id_mem {g : Graph} {s : JsonGraphTool} (hs : Inv g s) {x : Nat} {i : Int}
    (h : s.edge_idxs_ x = some i) :
    x ∈ s.edges_ ∧ i = ((s.edges_.indexOf x : Nat) + 1 : Int) := by
  rw [hs.ids] at h
  by_cases hx : x ∈ s.edges_
  · rw [if_pos hx] at h
    exact ⟨hx, (Option.some.inj h).symm⟩
  · rw [if_neg hx] at h; cases h

theorem Inv_id_bounds {g : Graph} {s : JsonGraphTool} (hs : Inv g s) {x : Nat} {i : Int}
    (h : s.edge_idxs_ x = some i) : 0 < i ∧ i ≤ (s.edges_.length : Int) := by
  obtain ⟨hx, hi⟩ := Inv_id_mem hs h
  have := List.indexOf_lt_length.mpr hx
  omega

theorem Inv_mem_id {g : Graph} {s : JsonGraphTool} (hs : Inv g s) {x : Nat}
    (hx : x ∈ s.edges_) : s.edge_idxs_ x = some ((s.edges_.indexOf x : Nat) + 1 : Int) := by
  rw [hs.ids, if_pos hx]

theorem Inv_ids_mono {g : Graph} {s s1 : JsonGraphTool} (hs : Inv g s) (hs1 : Inv g s1)
    {new : List Nat} (hext : s1.edges_ = s.edges_ ++ new) {x : Nat} {i : Int}
    (h : s.edge_idxs_ x = some i) : s1.edge_idxs_ x = some i := by
  obtain ⟨hx, hi⟩ := Inv_id_mem hs h
  have hx1 : x ∈ s1.edges_ := by rw [hext]; exact List.mem_append_left _ hx
  rw [Inv_mem_id hs1 hx1, hext, List.indexOf_append_of_mem hx, hi]

theorem Inv_new (g : Graph) (build_dir : String) : Inv g (JsonGraphTool.new build_dir) where
  last := rfl
  nodup := List.nodup_nil
  ids := by intro e; simp [JsonGraphTool.new]
  deps_ok := by intro a ha; simp [JsonGraphTool.new] at ha
  topo := by intro a ia deps h; simp [JsonGraphTool.new] at h

theorem Inv_push {g : Graph} {t : JsonGraphTool} (ht : Inv g t) {e : Nat} {deps : List Nat}
    (he : e ∉ t.edges_) (hdeps : FindNonPhonyDeps g e = .ok deps)
    (hd : ∀ d ∈ deps, (t.edge_idxs_ d).isSome) (v : List Nat) :
    Inv g { t with
      visited_edges_ := v
      last_edge_idx_ := t.last_edge_idx_ + 1
      edge_idxs_ := fun k => if k = e then some (t.last_edge_idx_ + 1) else t.edge_idxs_ k
      edges_ := t.edges_ ++ [e] } where
  last := by simp [ht.last]
  nodup := by
    simp only
    rw [List.nodup_append]
    refine ⟨ht.nodup, List.nodup_singleton e, ?_⟩
    intro x hx hx1
    rw [List.mem_singleton] at hx1
    subst hx1
    exact he hx
  ids := by
    intro x
    simp only
    by_cases hxe : x = e
    · subst hxe
      simp [List.indexOf_append_of_not_mem he, ht.last]
    · rw [if_neg hxe, ht.ids]
      by_cases hx : x ∈ t.edges_
      · simp [hx, List.indexOf_append_of_mem hx]
      · simp [hx, hxe]
  deps_ok := by
    intro a ha
    rcases List.mem_append.mp ha with ha | ha
    · exact ht.deps_ok a ha
    · rw [List.mem_singleton] at ha
      subst ha
      exact ⟨deps, hdeps⟩
  topo := by
    intro a ia deps1 ha hd1 b hb
    simp only at ha ⊢
    have hne : ∀ x i, t.edge_idxs_ x = some i → x ≠ e := by
      intro x i hx hxe
      subst hxe
      exact he (Inv_id_mem ht hx).1
    by_cases hae : a = e
    · subst hae
      rw [if_pos rfl] at ha
      rw [hdeps] at hd1
      cases hd1
      have hb1 := hd b hb
      obtain ⟨ib, hib⟩ := Option.isSome_iff_exists.mp hb1
      refine ⟨ib, ?_, ?_⟩
      · rw [if_neg (hne b ib hib)]; exact hib
      · have := (Inv_id_bounds ht hib).2
        have h2 := ht.last
        have h3 := Option.some.inj ha
        omega
    · rw [if_neg hae] at ha
      obtain ⟨ib, hib, hlt⟩ := ht.topo a ia deps1 ha hd1 b hb
      exact ⟨ib, by rw [if_neg (hne b ib hib)]; exact hib, hlt⟩

theorem TopoAddDeps_spec (g : Graph)
    (f : Nat → JsonGraphTool → Except Fault (Int × JsonGraphTool))
    (hf : ∀ d s r s1, Inv g s → f d s = .ok (r, s1) → TopoPost g d s r s1) :
    ∀ (deps : List Nat) (s : JsonGraphTool) (r : Int) (s1 : JsonGraphTool),
      Inv g s → (∀ d ∈ deps, g.is_phony d = false) →
      TopoAddDeps f deps s = .ok (r, s1) →
      Inv g s1 ∧ s1.root_nodes_ = s.root_nodes_ ∧
      (∃ new, s1.edges_ = s.edges_ ++ new ∧
        ∀ x ∈ new, x ∉ s.visited_edges_ ∧ g.is_phony x = false) ∧
      (r = 0 ∨ r = 1) ∧
      (r = 0 → s1.visited_edges_ = s.visited_edges_ ∧
        ∀ d ∈ deps, (s1.edge_idxs_ d).isSome) := by
  intro deps
  induction deps with
  | nil =>
    intro s r s1 hs _ h
    simp only [TopoAddDeps] at h
    cases h
    refine ⟨hs, rfl, ⟨[], by simp, by simp⟩, Or.inl rfl, fun _ => ⟨rfl, by simp⟩⟩
  | cons d ds ih =>
    intro s r s1 hs hph h
    simp only [TopoAddDeps] at h
    cases hfd : f d s with
    | error e => rw [hfd] at h; cases h
    | ok p =>
      obtain ⟨r0, s0⟩ := p
      rw [hfd] at h
      simp only at h
      have post := hf d s r0 s0 hs hfd
      obtain ⟨new0, hext0, hnew0⟩ := post.ext
      have hdph : g.is_phony d = false := hph d (List.mem_cons_self _ _)
      have hnew0p : ∀ x ∈ new0, x ∉ s.visited_edges_ ∧ g.is_phony x = false := by
        intro x hx
        obtain ⟨h1, h2⟩ := hnew0 x hx
        refine ⟨h1, ?_⟩
        rcases h2 with h2 | h2
        · rw [h2]; exact hdph
        · exact h2
      by_cases hr0 : r0 ≠ 0
      · rw [if_pos hr0] at h
        cases h
        refine ⟨post.inv, post.roots, ⟨new0, hext0, hnew0p⟩, Or.inr rfl, ?_⟩
        intro h1; cases h1
      · rw [if_neg hr0] at h
        have hr0z : r0 = 0 := not_not.mp hr0
        obtain ⟨hdid, hvis0⟩ := post.done hr0z
        obtain ⟨hinv1, hroots1, ⟨new1, hext1, hnew1⟩, hret1, hdone1⟩ :=
          ih s0 r s1 post.inv (fun x hx => hph x (List.mem_cons_of_mem _ hx)) h
        refine ⟨hinv1, hroots1.trans post.roots, ⟨new0 ++ new1, ?_, ?_⟩, hret1, ?_⟩
        · rw [hext1, hext0, List.append_assoc]
        · intro x hx
          rcases List.mem_append.mp hx with hx | hx
          · exact hnew0p x hx
          · have := hnew1 x hx
            rw [hvis0] at this
            exact this
        · intro hr
          obtain ⟨hv, hids⟩ := hdone1 hr
          refine ⟨hv.trans hvis0, ?_⟩
          intro x hx
          rcases List.mem_cons.mp hx with hx | hx
          · subst hx
            obtain ⟨i, hi⟩ := Option.isSome_iff_exists.mp hdid
            rw [Inv_ids_mono post.inv hinv1 hext1 hi]
            rfl
          · exact hids x hx

theorem TopoAddEdge_succ (g : Graph) (fuel edge : Nat) (s : JsonGraphTool) :
    TopoAddEdge g (fuel + 1) edge s =
      if (s.edge_idxs_ edge).isSome then .ok (0, s)
      else if edge ∈ s.visited_edges_ then .ok (1, s)
      else
        match FindNonPhonyDeps g edge with
        | .error e => .error e
        | .ok deps =>
          match TopoAddDeps (fun d t => TopoAddEdge g fuel d t) deps
              { s with visited_edges_ := s.visited_edges_.insert edge } with
          | .error e => .error e
          | .ok (r, s1) =>
            if r ≠ 0 then .ok (1, s1)
            else
              .ok (0, { s1 with
                visited_edges_ := s1.visited_edges_.erase edge
                last_edge_idx_ := s1.last_edge_idx_ + 1
                edge_idxs_ := fun k =>
                  if k = edge then some (s1.last_edge_idx_ + 1) else s1.edge_idxs_ k
                edges_ := s1.edges_ ++ [edge] }) := by
  rfl

theorem TopoAddEdge_spec (g : Graph) :
    ∀ (fuel e : Nat) (s : JsonGraphTool) (r : Int) (s1 : JsonGraphTool),
      Inv g s → TopoAddEdge g fuel e s = .ok (r, s1) → TopoPost g e s r s1 := by
  intro fuel
  induction fuel with
  | zero => intro e s r s1 _ h; cases h
  | succ fuel ih =>
    intro e s r s1 hs h
    rw [TopoAddEdge_succ] at h
    by_cases hid : (s.edge_idxs_ e).isSome
    · rw [if_pos hid] at h
      cases h
      exact ⟨hs, rfl, ⟨[], by simp, by simp⟩, Or.inl rfl, fun _ => ⟨hid, rfl⟩⟩
    · rw [if_neg hid] at h
      by_cases hvis : e ∈ s.visited_edges_
      · rw [if_pos hvis] at h
        cases h
        refine ⟨hs, rfl, ⟨[], by simp, by simp⟩, Or.inr rfl, ?_⟩
        intro h1; cases h1
      · rw [if_neg hvis] at h
        cases hdeps : FindNonPhonyDeps g e with
        | error f => rw [hdeps] at h; cases h
        | ok deps =>
          rw [hdeps] at h
          simp only at h
          have hs0 : Inv g { s with visited_edges_ := s.visited_edges_.insert e } :=
            ⟨hs.last, hs.nodup, hs.ids, hs.deps_ok, hs.topo⟩
          cases hloop : TopoAddDeps (fun d t => TopoAddEdge g fuel d t) deps
              { s with visited_edges_ := s.visited_edges_.insert e } with
          | error f => rw [hloop] at h; cases h
          | ok p =>
            obtain ⟨r0, t⟩ := p
            rw [hloop] at h
            simp only at h
            obtain ⟨hinv, hroots, ⟨new, hext, hnew⟩, hret, hdone⟩ :=
              TopoAddDeps_spec g _ (fun d s r s1 hs hf => ih d s r s1 hs hf) deps _ r0 t
                hs0 (FindNonPhonyDeps_nonphony g e deps hdeps) hloop
            simp only at hroots hext hnew hdone
            have hnew1 : ∀ x ∈ new, x ∉ s.visited_edges_ ∧ x ≠ e ∧ g.is_phony x = false := by
              intro x hx
              obtain ⟨h1, h2⟩ := hnew x hx
              rw [List.mem_insert_iff] at h1
              exact ⟨fun hc => h1 (Or.inr hc), fun hc => h1 (Or.inl hc), h2⟩
            by_cases hr0 : r0 ≠ 0
            · rw [if_pos hr0] at h
              cases h
              refine ⟨hinv, hroots, ⟨new, hext, ?_⟩, Or.inr rfl, ?_⟩
              · intro x hx
                exact ⟨(hnew1 x hx).1, Or.inr (hnew1 x hx).2.2⟩
              · intro h1; cases h1
            · rw [if_neg hr0] at h
              cases h
              have hr0z : r0 = 0 := not_not.mp hr0
              obtain ⟨hv, hids⟩ := hdone hr0z
              have he : e ∉ t.edges_ := by
                rw [hext]
                intro hc
                rcases List.mem_append.mp hc with hc | hc
                · have := Inv_mem_id hs hc
                  rw [this] at hid
                  exact hid rfl
                · exact (hnew1 e hc).2.1 rfl
              refine ⟨Inv_push hinv he hdeps hids _, hroots, ⟨new ++ [e], ?_, ?_⟩,
                Or.inl rfl, ?_⟩
              · simp only [hext, List.append_assoc]
              · intro x hx
                rcases List.mem_append.mp hx with hx | hx
                · exact ⟨(hnew1 x hx).1, Or.inr (hnew1 x hx).2.2⟩
                · rw [List.mem_singleton] at hx
                  subst hx
                  exact ⟨hvis, Or.inl rfl⟩
              · intro _
                refine ⟨by simp, ?_⟩
                simp only
                rw [hv, List.insert_of_not_mem hvis, List.erase_cons_head]

theorem AddRootTargetSignal_spec (g : Graph) (s s1 : JsonGraphTool) (node : Nat) (r : Int)
    (hs : Inv g s) (h : AddRootTargetSignal g s node = .ok (r, s1)) :
    ∃ e, g.in_edge node = some e ∧ Inv g s1 ∧
      s1.root_nodes_ = s.root_nodes_ ++ [node] ∧
      (∃ new, s1.edges_ = s.edges_ ++ new ∧ ∀ x ∈ new, x = e ∨ g.is_phony x = false) ∧
      (r = 0 ∨ r = 1) ∧ (r = 0 → (s1.edge_idxs_ e).isSome) := by
  unfold AddRootTargetSignal at h
  cases hin : g.in_edge node with
  | none => rw [hin] at h; cases h
  | some e =>
    rw [hin] at h
    simp only at h
    refine ⟨e, rfl, ?_⟩
    by_cases hid : (s.edge_idxs_ e).isSome
    · rw [if_pos hid] at h
      cases h
      exact ⟨⟨hs.last, hs.nodup, hs.ids, hs.deps_ok, hs.topo⟩, rfl,
        ⟨[], by simp, by simp⟩, Or.inl rfl, fun _ => hid⟩
    · rw [if_neg hid] at h
      have post := TopoAddEdge_spec g _ e _ r s1
        (⟨hs.last, hs.nodup, hs.ids, hs.deps_ok, hs.topo⟩ :
          Inv g { s with root_nodes_ := s.root_nodes_ ++ [node], visited_edges_ := [] }) h
      obtain ⟨new, hext, hnew⟩ := post.ext
      exact ⟨post.inv, post.roots, ⟨new, hext, fun x hx => (hnew x hx).2⟩, post.ret,
        fun hr => (post.done hr).1⟩

theorem AddRootTarget_spec (g : Graph) (s s1 : JsonGraphTool) (node : Nat)
    (hs : Inv g s) (h : AddRootTarget g s node = .ok s1) :
    ∃ e, g.in_edge node = some e ∧ Inv g s1 ∧
      s1.root_nodes_ = s.root_nodes_ ++ [node] ∧
      (∃ new, s1.edges_ = s.edges_ ++ new ∧ ∀ x ∈ new, x = e ∨ g.is_phony x = false) := by
  unfold AddRootTarget at h
  cases hsig : AddRootTargetSignal g s node with
  | error f => rw [hsig] at h; cases h
  | ok p =>
    obtain ⟨r, s2⟩ := p
    rw [hsig] at h
    cases h
    obtain ⟨e, h1, h2, h3, h4, _⟩ := AddRootTargetSignal_spec g s s1 node r hs hsig
    exact ⟨e, h1, h2, h3, h4⟩

theorem Reachable_Inv (g : Graph) (s : JsonGraphTool) (h : Reachable g s) : Inv g s := by
  induction h with
  | init build_dir => exact Inv_new g build_dir
  | step s s1 node _ hstep ih =>
    obtain ⟨_, _, h2, _⟩ := AddRootTarget_spec g s s1 node ih hstep
    exact h2

theorem Reachable_phony (g : Graph) (s : JsonGraphTool) (h : Reachable g s) :
    ∀ e ∈ s.edges_, g.is_phony e = true → ∃ n ∈ s.root_nodes_, g.in_edge n = some e := by
  induction h with
  | init build_dir => intro e he; simp [JsonGraphTool.new] at he
  | step s s1 node hreach hstep ih =>
    obtain ⟨e0, hin, _, hroots, ⟨new, hext, hnew⟩⟩ :=
      AddRootTarget_spec g s s1 node (Reachable_Inv g s hreach) hstep
    intro e he hph
    rw [hext] at he
    rw [hroots]
    rcases List.mem_append.mp he with he | he
    · obtain ⟨n, hn, hne⟩ := ih e he hph
      exact ⟨n, List.mem_append_left _ hn, hne⟩
    · rcases hnew e he with h1 | h1
      · subst h1
        exact ⟨node, by simp, hin⟩
      · rw [h1] at hph; cases hph

theorem Reachable_of_AddRootTargets (g : Graph) (build_dir : String) :
    ∀ (nodes : List Nat) (s : JsonGraphTool),
      AddRootTargets g build_dir nodes = .ok s → Reachable g s := by
  have key : ∀ (nodes : List Nat) (s0 s : JsonGraphTool), Reachable g s0 →
      nodes.foldlM (fun s n => AddRootTarget g s n) s0 = .ok s → Reachable g s := by
    intro nodes
    induction nodes with
    | nil => intro s0 s h0 h; rw [foldlM_except_nil] at h; cases h; exact h0
    | cons n nodes ih =>
      intro s0 s h0 h
      rw [foldlM_except_cons] at h
      cases hstep : AddRootTarget g s0 n with
      | error f => rw [hstep] at h; cases h
      | ok s2 =>
        rw [hstep] at h
        exact ih s2 s (Reachable.step s0 s2 n h0 hstep) h
  intro nodes s h
  exact key nodes _ s (Reachable.init build_dir) h

theorem mapIndex_of_some {m : Nat → Option Int} {k : Nat} {v : Int} (h : m k = some v) :
    mapIndex m k = (v, m) := by
  unfold mapIndex
  rw [h]

theorem WriteEdgeDeps_ok (edge_id : Int) (m : Nat → Option Int) :
    ∀ (deps : List Nat) (is_first : Bool),
      (∀ d ∈ deps, ∃ ib, m d = some ib ∧ ib ≤ edge_id) →
      ∃ calls, WriteEdgeDeps edge_id deps is_first m = .ok (calls, m) := by
  intro deps
  induction deps with
  | nil => intro _ _; exact ⟨[], rfl⟩
  | cons d ds ih =>
    intro is_first h
    obtain ⟨ib, hib, hle⟩ := h d (List.mem_cons_self _ _)
    obtain ⟨calls, hc⟩ := ih false (fun x hx => h x (List.mem_cons_of_mem _ hx))
    refine ⟨WriteEdgeReference ib is_first ++ calls, ?_⟩
    simp only [WriteEdgeDeps, hib, Option.isNone_some, Bool.false_eq_true, if_false,
      mapIndex_of_some hib, gt_iff_lt, not_lt.mpr hle, hc]

theorem foldlM_except_error {σ α : Type} (f : σ → α → Except Fault σ) (Q : Fault → Prop)
    (hf : ∀ st a e, f st a = .error e → Q e) :
    ∀ (l : List α) (st : σ) (e : Fault), l.foldlM f st = .error e → Q e := by
  intro l
  induction l with
  | nil => intro st e h; rw [foldlM_except_nil] at h; cases h
  | cons a l ih =>
    intro st e h
    rw [foldlM_except_cons] at h
    cases hfa : f st a with
    | error e1 => rw [hfa] at h; cases h; exact hf st a e hfa
    | ok st2 => rw [hfa] at h; exact ih st2 e h

theorem CollectNonPhonyInputs_succ (g : Graph) (fuel c : Nat) (inputs visited : List Nat) :
    CollectNonPhonyInputs g (fuel + 1) c (inputs, visited) =
      if c ∈ visited then .ok (inputs, visited)
      else
        match g.in_edge c with
        | none => .ok (inputs ++ [c], visited.insert c)
        | some in_edge =>
          if g.is_phony in_edge then
            (g.inputs_ in_edge).foldlM
              (fun st i => CollectNonPhonyInputs g fuel i st) (inputs, visited)
          else .ok (inputs ++ [c], visited.insert c) := by
  rfl

theorem CollectNonPhonyInputs_error (g : Graph) :
    ∀ fuel c (st : List Nat × List Nat) (e : Fault),
      CollectNonPhonyInputs g fuel c st = .error e → e = .OutOfFuel := by
  intro fuel
  induction fuel with
  | zero => intro c st e h; cases h; rfl
  | succ fuel ih =>
    intro c st e h
    obtain ⟨inputs, visited⟩ := st
    rw [CollectNonPhonyInputs_succ] at h
    by_cases hv : c ∈ visited
    · rw [if_pos hv] at h; cases h
    · rw [if_neg hv] at h
      cases hin : g.in_edge c with
      | none => rw [hin] at h; cases h
      | some ie =>
        rw [hin] at h
        simp only at h
        cases hph : g.is_phony ie with
        | false => rw [hph] at h; simp at h
        | true =>
          rw [hph] at h
          simp only [if_true] at h
          exact foldlM_except_error _ (fun e => e = .OutOfFuel)
            (fun st a e he => ih a st e he) _ _ e h

theorem WriteAllInputs_error (g : Graph) (edge : Nat) (e : Fault)
    (h : WriteAllInputs g edge = .error e) : e = .OutOfFuel := by
  unfold WriteAllInputs TrueInputs at h
  cases hf : (g.inputs_ edge).foldlM
      (fun st i => CollectNonPhonyInputs g (g.edge_count + 1) i st) ([], []) with
  | error e1 =>
    rw [hf] at h
    cases h
    exact foldlM_except_error _ (fun e => e = .OutOfFuel)
      (fun st a e he => CollectNonPhonyInputs_error g _ a st e he) _ _ e hf
  | ok st => rw [hf] at h; cases h

theorem WriteEdge_listed (g : Graph) (s : JsonGraphTool) (hs : Inv g s) (a : Nat)
    (ha : a ∈ s.edges_) (is_first : Bool) :
    WriteEdge g a s.edge_idxs_ is_first = .error .OutOfFuel ∨
      ∃ calls, WriteEdge g a s.edge_idxs_ is_first = .ok (calls, s.edge_idxs_) := by
  obtain ⟨deps, hdeps⟩ := hs.deps_ok a ha
  have hid := Inv_mem_id hs ha
  have hdep : ∀ d ∈ deps, ∃ ib, s.edge_idxs_ d = some ib ∧
      ib ≤ ((s.edges_.indexOf a : Nat) + 1 : Int) := by
    intro d hd
    obtain ⟨ib, hib, hlt⟩ := hs.topo a _ deps hid hdeps d hd
    exact ⟨ib, hib, le_of_lt hlt⟩
  obtain ⟨calls, hc⟩ := WriteEdgeDeps_ok _ s.edge_idxs_ deps true hdep
  unfold WriteEdge
  rw [mapIndex_of_some hid]
  simp only [hdeps, hc]
  cases hw : WriteAllInputs g a with
  | error e =>
    left
    rw [WriteAllInputs_error g a e hw]
  | ok input_calls =>
    right
    exact ⟨_, rfl⟩

theorem WriteEdges_listed (g : Graph) (s : JsonGraphTool) (hs : Inv g s) :
    ∀ (l : List Nat) (is_first : Bool), (∀ a ∈ l, a ∈ s.edges_) →
      WriteEdges g l is_first s.edge_idxs_ = .error .OutOfFuel ∨
        ∃ calls, WriteEdges g l is_first s.edge_idxs_ = .ok (calls, s.edge_idxs_) := by
  intro l
  induction l with
  | nil => intro _ _; right; exact ⟨[], rfl⟩
  | cons a l ih =>
    intro is_first h
    simp only [WriteEdges]
    rcases WriteEdge_listed g s hs a (h a (List.mem_cons_self _ _)) is_first with h1 | ⟨c, h1⟩
    · left; rw [h1]
    · rw [h1]
      simp only
      rcases ih false (fun x hx => h x (List.mem_cons_of_mem _ hx)) with h2 | ⟨c2, h2⟩
      · left; rw [h2]
      · right; rw [h2]; exact ⟨_, rfl⟩

theorem Flush_listed (g : Graph) (s : JsonGraphTool) (hs : Inv g s) :
    Flush g s = .error .OutOfFuel ∨ ∃ calls, Flush g s = .ok calls := by
  unfold Flush
  rcases WriteEdges_listed g s hs s.edges_ true (fun _ h => h) with h | ⟨c, h⟩
  · left; rw [h]
  · right; rw [h]; exact ⟨_, rfl⟩

theorem scenarioGraph_wf : scenarioGraph.WellFormed := by
  intro n e h
  simp only [scenarioGraph] at h ⊢
  rcases n with _ | _ | _ | _ | _ | _ | n <;> simp [List.getD] at h <;> omega

theorem cycleGraph_wf : cycleGraph.WellFormed := by
  intro n e h
  simp only [cycleGraph] at h ⊢
  rcases n with _ | _ | n <;> simp [List.getD] at h <;> omega

theorem phonyLoopGraph_wf : phonyLoopGraph.WellFormed := by
  intro n e h
  simp only [phonyLoopGraph] at h ⊢
  rcases n with _ | _ | _ | n <;> simp [List.getD] at h <;> omega

theorem scenario_app_reachable : Reachable scenarioGraph (sessionAfter scenarioGraph [0]) :=
  Reachable_of_AddRootTargets scenarioGraph "" [0] _ rfl

theorem scenario_objs_reachable : Reachable scenarioGraph (sessionAfter scenarioGraph [1]) :=
  Reachable_of_AddRootTargets scenarioGraph "" [1] _ rfl

theorem cycle_reachable : Reachable cycleGraph (sessionAfter cycleGraph [0]) :=
  Reachable_of_AddRootTargets cycleGraph "" [0] _ rfl

theorem phonyLoop_reachable : Reachable phonyLoopGraph (sessionAfter phonyLoopGraph [2]) :=
  Reachable_of_AddRootTargets phonyLoopGraph "" [2] _ rfl

theorem Inv_dep_lt {g : Graph} {s : JsonGraphTool} (hs : Inv g s) {a b : Nat} {ia : Int}
    (ha : s.edge_idxs_ a = some ia) (hd : Dep g a b) :
    ∃ ib, s.edge_idxs_ b = some ib ∧ ib < ia := by
  obtain ⟨deps, hdeps, hb⟩ := hd
  exact hs.topo a ia deps ha hdeps b hb

theorem Inv_transGen_lt {g : Graph} {s : JsonGraphTool} (hs : Inv g s) {a b : Nat}
    (h : Relation.TransGen (Dep g) a b) :
    ∀ ia, s.edge_idxs_ a = some ia → ∃ ib, s.edge_idxs_ b = some ib ∧ ib < ia := by
  induction h with
  | single hd => intro ia ha; exact Inv_dep_lt hs ha hd
  | tail _ hd ih =>
    intro ia ha
    obtain ⟨ib, hib, hlt⟩ := ih ia ha
    obtain ⟨ic, hic, hlt2⟩ := Inv_dep_lt hs hib hd
    exact ⟨ic, hic, lt_trans hlt2 hlt⟩

theorem Inv_reflTransGen_le {g : Graph} {s : JsonGraphTool} (hs : Inv g s) {a b : Nat}
    (h : Relation.ReflTransGen (Dep g) a b) :
    ∀ ia, s.edge_idxs_ a = some ia → ∃ ib, s.edge_idxs_ b = some ib ∧ ib ≤ ia := by
  induction h with
  | refl => intro ia ha; exact ⟨ia, ha, le_refl _⟩
  | tail _ hd ih =>
    intro ia ha
    obtain ⟨ib, hib, hle⟩ := ih ia ha
    obtain ⟨ic, hic, hlt⟩ := Inv_dep_lt hs hib hd
    exact ⟨ic, hic, le_of_lt (lt_of_lt_of_le hlt hle)⟩

theorem FromNode_produced (g : Graph) :
    ∀ fuel node (st st1 : List Nat × List Nat),
      (∀ x ∈ st.1, ∃ n, g.in_edge n = some x) →
      FindNonPhonyDepsFromNodeRecursive g fuel node st = .ok st1 →
      ∀ x ∈ st1.1, ∃ n, g.in_edge n = some x := by
  intro fuel
  induction fuel with
  | zero => intro node st st1 _ h; cases h
  | succ fuel ih =>
    intro node st st1 hP h
    obtain ⟨result, added⟩ := st
    rw [FromNode_succ] at h
    cases hin : g.in_edge node with
    | none => rw [hin] at h; cases h; exact hP
    | some e =>
      rw [hin] at h
      simp only at h
      by_cases hmem : e ∈ added
      · rw [if_pos hmem] at h; cases h; exact hP
      · rw [if_neg hmem] at h
        cases hph : g.is_phony e with
        | false =>
          rw [hph] at h
          simp only [Bool.false_eq_true, if_false] at h
          cases h
          intro x hx
          rcases List.mem_append.mp hx with hx | hx
          · exact hP x hx
          · rw [List.mem_singleton] at hx; rw [hx]; exact ⟨node, hin⟩
        | true =>
          rw [hph] at h
          simp only [if_true] at h
          exact foldlM_except_inv _ (fun st => ∀ x ∈ st.1, ∃ n, g.in_edge n = some x)
            (fun st a st1 hst hf => ih a st st1 hst hf) _ _ _ hP h

theorem FindNonPhonyDeps_produced (g : Graph) (e : Nat) (deps : List Nat)
    (h : FindNonPhonyDeps g e = .ok deps) : ∀ d ∈ deps, ∃ n, g.in_edge n = some d := by
  unfold FindNonPhonyDeps at h
  cases hr : FindNonPhonyDepsRecursive g (g.edge_count + 1) e ([], []) with
  | error f => rw [hr] at h; cases h
  | ok st =>
    rw [hr] at h
    obtain ⟨result, added⟩ := st
    cases h
    unfold FindNonPhonyDepsRecursive at hr
    exact foldlM_except_inv _ (fun st => ∀ x ∈ st.1, ∃ n, g.in_edge n = some x)
      (fun st a st1 hst hf => FromNode_produced g _ a st st1 hst hf) _ _ _
      (by intro x hx; cases hx) hr

theorem FindNonPhonyDeps_total (g : Graph) (hg : g.WellFormed) (e : Nat) :
    ∃ deps, FindNonPhonyDeps g e = .ok deps := by
  obtain ⟨st, hst⟩ := FindNonPhonyDepsRecursive_total g hg (g.edge_count + 1) e ([], [])
    (lt_of_le_of_lt (unadded_le g []) (Nat.lt_succ_self _))
  unfold FindNonPhonyDeps
  rw [hst]
  exact ⟨st.1, rfl⟩

theorem TopoAddDeps_total (g : Graph) (fuel : Nat)
    (ih : ∀ e s, Inv g s → e < g.edge_count → unadded g s.visited_edges_ < fuel →
      ∃ r s1, TopoAddEdge g fuel e s = .ok (r, s1)) :
    ∀ (deps : List Nat) (s : JsonGraphTool), Inv g s →
      (∀ d ∈ deps, d < g.edge_count) → unadded g s.visited_edges_ < fuel →
      ∃ r s1, TopoAddDeps (fun d t => TopoAddEdge g fuel d t) deps s = .ok (r, s1) := by
  intro deps
  induction deps with
  | nil => intro s _ _ _; exact ⟨0, s, rfl⟩
  | cons d ds ihd =>
    intro s hs hlt hm
    obtain ⟨r0, s0, h0⟩ := ih d s hs (hlt d (List.mem_cons_self _ _)) hm
    simp only [TopoAddDeps, h0]
    by_cases hr0 : r0 ≠ 0
    · rw [if_pos hr0]; exact ⟨1, s0, rfl⟩
    · rw [if_neg hr0]
      have post := TopoAddEdge_spec g fuel d s r0 s0 hs h0
      have hv := (post.done (not_not.mp hr0)).2
      exact ihd s0 post.inv (fun x hx => hlt x (List.mem_cons_of_mem _ hx)) (by rw [hv]; exact hm)

theorem TopoAddEdge_total (g : Graph) (hg : g.WellFormed) :
    ∀ (fuel e : Nat) (s : JsonGraphTool), Inv g s → e < g.edge_count →
      unadded g s.visited_edges_ < fuel →
      ∃ r s1, TopoAddEdge g fuel e s = .ok (r, s1) := by
  intro fuel
  induction fuel with
  | zero => intro e s _ _ h; omega
  | succ fuel ih =>
    intro e s hs he hm
    rw [TopoAddEdge_succ]
    by_cases hid : (s.edge_idxs_ e).isSome
    · rw [if_pos hid]; exact ⟨0, s, rfl⟩
    · rw [if_neg hid]
      by_cases hvis : e ∈ s.visited_edges_
      · rw [if_pos hvis]; exact ⟨1, s, rfl⟩
      · rw [if_neg hvis]
        obtain ⟨deps, hdeps⟩ := FindNonPhonyDeps_total g hg e
        rw [hdeps]
        simp only
        have hlt : ∀ d ∈ deps, d < g.edge_count := by
          intro d hd
          obtain ⟨n, hn⟩ := FindNonPhonyDeps_produced g e deps hdeps d hd
          exact hg n d hn
        have hm1 : unadded g (s.visited_edges_.insert e) < fuel := by
          have := unadded_insert_lt g he hvis
          omega
        obtain ⟨r0, s0, h0⟩ := TopoAddDeps_total g fuel ih deps
          { s with visited_edges_ := s.visited_edges_.insert e }
          ⟨hs.last, hs.nodup, hs.ids, hs.deps_ok, hs.topo⟩ hlt hm1
        rw [h0]
        simp only
        by_cases hr0 : r0 ≠ 0
        · rw [if_pos hr0]; exact ⟨_, _, rfl⟩
        · rw [if_neg hr0]; exact ⟨_, _, rfl⟩

theorem AddRootTarget_total (g : Graph) (hg : g.WellFormed) (s : JsonGraphTool)
    (hs : Inv g s) (node e : Nat) (hin : g.in_edge node = some e) :
    ∃ s1, AddRootTarget g s node = .ok s1 := by
  unfold AddRootTarget AddRootTargetSignal
  rw [hin]
  simp only
  by_cases hid : (s.edge_idxs_ e).isSome
  · rw [if_pos hid]; exact ⟨_, rfl⟩
  · rw [if_neg hid]
    obtain ⟨r, s1, h⟩ := TopoAddEdge_total g hg (g.edge_count + 1) e
      { s with root_nodes_ := s.root_nodes_ ++ [node], visited_edges_ := [] }
      ⟨hs.last, hs.nodup, hs.ids, hs.deps_ok, hs.topo⟩ (hg node e hin)
      (lt_of_le_of_lt (unadded_le g []) (Nat.lt_succ_self _))
    rw [h]
    exact ⟨s1, rfl⟩

theorem foldlM_except_mono {σ α : Type} (f f1 : σ → α → Except Fault σ)
    (hf : ∀ st a r, f st a = .ok r → f1 st a = .ok r) :
    ∀ (l : List α) (st r : σ), l.foldlM f st = .ok r → l.foldlM f1 st = .ok r := by
  intro l
  induction l with
  | nil => intro st r h; exact h
  | cons a l ih =>
    intro st r h
    rw [foldlM_except_cons] at h ⊢
    cases hfa : f st a with
    | error e => rw [hfa] at h; cases h
    | ok st2 =>
      rw [hfa] at h
      rw [hf st a st2 hfa]
      exact ih st2 r h

theorem FromNode_fuel_succ (g : Graph) :
    ∀ fuel node (st r : List Nat × List Nat),
      FindNonPhonyDepsFromNodeRecursive g fuel node st = .ok r →
      FindNonPhonyDepsFromNodeRecursive g (fuel + 1) node st = .ok r := by
  intro fuel
  induction fuel with
  | zero => intro node st r h; cases h
  | succ fuel ih =>
    intro node st r h
    obtain ⟨result, added⟩ := st
    rw [FromNode_succ] at h ⊢
    cases hin : g.in_edge node with
    | none => rw [hin] at h; exact h
    | some e =>
      rw [hin] at h
      simp only at h ⊢
      by_cases hmem : e ∈ added
      · rw [if_pos hmem] at h ⊢; exact h
      · rw [if_neg hmem] at h ⊢
        cases hph : g.is_phony e with
        | false => rw [hph] at h; exact h
        | true =>
          rw [hph] at h
          simp only [if_true] at h ⊢
          unfold FindNonPhonyDepsRecursive at h ⊢
          exact foldlM_except_mono _ _ (fun st a r hr => ih a st r hr) _ _ _ h

theorem FindNonPhonyDepsRecursive_fuel_le (g : Graph) (edge : Nat)
    (st r : List Nat × List Nat) :
    ∀ fuel fuel1, fuel ≤ fuel1 →
      FindNonPhonyDepsRecursive g fuel edge st = .ok r →
      FindNonPhonyDepsRecursive g fuel1 edge st = .ok r := by
  intro fuel fuel1 hle
  induction hle with
  | refl => exact fun h => h
  | step _ ih =>
    intro h
    have h1 := ih h
    unfold FindNonPhonyDepsRecursive at h1 ⊢
    exact foldlM_except_mono _ _ (fun st a r hr => FromNode_fuel_succ g _ a st r hr) _ _ _ h1

theorem EscapeJson_fold_data (l : List Char) :
    ∀ acc : String,
      (l.foldl
        (fun o c =>
          if c = '\\' then o ++ "\\\\"
          else if c = '"' then o ++ "\\\""
          else if c = '\r' then o ++ "\\r"
          else if c = '\n' then o ++ "\\n"
          else o.push c) acc).data
        = acc.data ++ l.flatMap (fun c => (escapeOf c).data) := by
  induction l with
  | nil => intro acc; simp
  | cons c l ih =>
    intro acc
    rw [List.foldl_cons, ih, List.flatMap_cons, ← List.append_assoc]
    congr 1
    unfold escapeOf
    split_ifs <;> simp [String.singleton]

theorem join_fold_data (l : List String) :
    ∀ acc : String, (l.foldl (fun r s => r ++ s) acc).data = acc.data ++ l.flatMap String.data := by
  induction l with
  | nil => intro acc; simp
  | cons s l ih =>
    intro acc
    rw [List.foldl_cons, ih, List.flatMap_cons, String.data_append, List.append_assoc]

theorem EscapeJson_data (s : String) :
    (EscapeJson s).data = s.data.flatMap (fun c => (escapeOf c).data) := by
  unfold EscapeJson
  rw [EscapeJson_fold_data]
  rfl

theorem escapeOf_data_mem (c x : Char) (hx : x ∈ (escapeOf c).data) :
    x ≠ '\r' ∧ x ≠ '\n' := by
  unfold escapeOf at hx
  split_ifs at hx with h1 h2 h3 h4
  · revert x; decide
  · revert x; decide
  · revert x; decide
  · revert x; decide
  · simp [String.singleton] at hx
    subst hx
    exact ⟨h3, h4⟩

theorem WriteStrings_append (l m : List String) :
    ∀ c : Bool, WriteStrings (l ++ m) c = WriteStrings l c ++ WriteStrings m (c || !l.isEmpty) := by
  induction l with
  | nil => intro c; simp [WriteStrings]
  | cons p l ih =>
    intro c
    have h := ih true
    simp only [Bool.true_or] at h
    show JsonCall.String_ p c :: WriteStrings (l ++ m) true = _
    rw [h]
    simp [WriteStrings]

theorem WriteStrings_getElem? (l : List String) :
    ∀ (c : Bool) (i : Nat),
      (WriteStrings l c)[i]? =
        (l[i]?).map (fun p => JsonCall.String_ p (if i = 0 then c else true)) := by
  induction l with
  | nil => intro c i; simp [WriteStrings]
  | cons p l ih =>
    intro c i
    cases i with
    | zero => simp [WriteStrings]
    | succ i =>
      simp only [WriteStrings, List.getElem?_cons_succ, ih]
      simp

theorem WriteOutputs_eq (g : Graph) (edge : Nat) :
    WriteOutputs g edge = WriteStrings (outputElements g edge) false := by
  unfold WriteOutputs outputElements
  cases hph : g.is_phony edge with
  | true => simp [WriteStrings]
  | false =>
    simp only [Bool.false_eq_true, if_false]
    rw [WriteStrings_append]
    congr 1
    by_cases hd : g.GetBinding edge "depfile" = ""
    · simp [hd, WriteStrings]
    · cases ho : g.outputs_ edge <;> simp [hd, WriteStrings]

theorem mapIndex_reads (m : Nat → Option Int) (k : Nat) :
    (mapIndex m k).1 = (m k).getD 0 ∧
      ∀ x, ((mapIndex m k).2 x).getD 0 = (m x).getD 0 := by
  unfold mapIndex
  cases hk : m k with
  | some v => simp
  | none =>
    refine ⟨by simp, ?_⟩
    intro x
    simp only
    by_cases hx : x = k
    · subst hx; simp [hk]
    · simp [hx]

theorem WriteRootTargets_eq (g : Graph) (m0 : Nat → Option Int) :
    ∀ (l : List Nat) (is_first : Bool) (m : Nat → Option Int),
      (∀ x, (m x).getD 0 = (m0 x).getD 0) →
      (WriteRootTargets g l is_first m).1 =
        targetEntries (l.map (fun n => (g.path n, rootRef g m0 n))) is_first := by
  intro l
  induction l with
  | nil => intro _ _ _; rfl
  | cons t l ih =>
    intro is_first m hm
    simp only [WriteRootTargets, WriteRootTarget, List.map_cons, targetEntries]
    cases hin : g.in_edge t with
    | none =>
      simp only [rootRef, hin]
      rw [ih false m hm]
      rfl
    | some e =>
      simp only [rootRef, hin]
      have h1 := mapIndex_reads m e
      rw [ih false (mapIndex m e).2 (fun x => (h1.2 x).trans (hm x)), h1.1, hm e]
      rfl

theorem AddRootTargets_roots (g : Graph) :
    ∀ (nodes : List Nat) (s0 s : JsonGraphTool), Inv g s0 →
      nodes.foldlM (fun s n => AddRootTarget g s n) s0 = .ok s →
      s.root_nodes_ = s0.root_nodes_ ++ nodes ∧ Inv g s := by
  intro nodes
  induction nodes with
  | nil =>
    intro s0 s h0 h
    rw [foldlM_except_nil] at h
    cases h
    exact ⟨by simp, h0⟩
  | cons n nodes ih =>
    intro s0 s h0 h
    rw [foldlM_except_cons] at h
    cases hstep : AddRootTarget g s0 n with
    | error f => rw [hstep] at h; cases h
    | ok s2 =>
      rw [hstep] at h
      obtain ⟨_, _, hinv, hroots, _⟩ := AddRootTarget_spec g s0 s2 n h0 hstep
      obtain ⟨h1, h2⟩ := ih s2 s hinv h
      exact ⟨by rw [h1, hroots, List.append_assoc]; rfl, h2⟩

theorem TopoAddDeps_cycle (g : Graph)
    (f : Nat → JsonGraphTool → Except Fault (Int × JsonGraphTool))
    (hpost : ∀ d s r s1, Inv g s → f d s = .ok (r, s1) → TopoPost g d s r s1)
    (hf : ∀ d s r s1, Inv g s → (∀ v ∈ s.visited_edges_, Relation.TransGen (Dep g) v d) →
      f d s = .ok (r, s1) → r ≠ 0 → CycleReachable g d) :
    ∀ (deps : List Nat) (s : JsonGraphTool) (r : Int) (s1 : JsonGraphTool),
      Inv g s →
      (∀ v ∈ s.visited_edges_, ∀ d ∈ deps, Relation.TransGen (Dep g) v d) →
      TopoAddDeps f deps s = .ok (r, s1) → r ≠ 0 →
      ∃ d ∈ deps, CycleReachable g d := by
  intro deps
  induction deps with
  | nil =>
    intro s r s1 _ _ h hr
    simp only [TopoAddDeps] at h
    cases h
    exact absurd rfl hr
  | cons d ds ih =>
    intro s r s1 hs hv h hr
    simp only [TopoAddDeps] at h
    cases hfd : f d s with
    | error e => rw [hfd] at h; cases h
    | ok p =>
      obtain ⟨r0, s0⟩ := p
      rw [hfd] at h
      simp only at h
      by_cases hr0 : r0 ≠ 0
      · exact ⟨d, List.mem_cons_self _ _,
          hf d s r0 s0 hs (fun v hvm => hv v hvm d (List.mem_cons_self _ _)) hfd hr0⟩
      · rw [if_neg hr0] at h
        have post := hpost d s r0 s0 hs hfd
        have hvis := (post.done (not_not.mp hr0)).2
        obtain ⟨d1, hd1, hc⟩ := ih s0 r s1 post.inv
          (fun v hvm x hx => hv v (by rw [← hvis]; exact hvm) x (List.mem_cons_of_mem _ hx))
          h hr
        exact ⟨d1, List.mem_cons_of_mem _ hd1, hc⟩

theorem TopoAddEdge_cycle (g : Graph) :
    ∀ (fuel e : Nat) (s : JsonGraphTool) (r : Int) (s1 : JsonGraphTool),
      Inv g s → (∀ v ∈ s.visited_edges_, Relation.TransGen (Dep g) v e) →
      TopoAddEdge g fuel e s = .ok (r, s1) → r ≠ 0 → CycleReachable g e := by
  intro fuel
  induction fuel with
  | zero => intro e s r s1 _ _ h; cases h
  | succ fuel ih =>
    intro e s r s1 hs hv h hr
    rw [TopoAddEdge_succ] at h
    by_cases hid : (s.edge_idxs_ e).isSome
    · rw [if_pos hid] at h; cases h; exact absurd rfl hr
    · rw [if_neg hid] at h
      by_cases hvis : e ∈ s.visited_edges_
      · exact ⟨e, Relation.ReflTransGen.refl, hv e hvis⟩
      · rw [if_neg hvis] at h
        cases hdeps : FindNonPhonyDeps g e with
        | error f => rw [hdeps] at h; cases h
        | ok deps =>
          rw [hdeps] at h
          simp only at h
          cases hloop : TopoAddDeps (fun d t => TopoAddEdge g fuel d t) deps
              { s with visited_edges_ := s.visited_edges_.insert e } with
          | error f => rw [hloop] at h; cases h
          | ok p =>
            obtain ⟨r0, t⟩ := p
            rw [hloop] at h
            simp only at h
            by_cases hr0 : r0 ≠ 0
            · have hdep : ∀ d ∈ deps, Dep g e d := fun d hd => ⟨deps, hdeps, hd⟩
              obtain ⟨d, hd, c, hdc, hcc⟩ := TopoAddDeps_cycle g _
                (fun d s r s1 hs hf => TopoAddEdge_spec g fuel d s r s1 hs hf)
                (fun d s r s1 hs hv hf hr => ih d s r s1 hs hv hf hr)
                deps _ r0 t
                (⟨hs.last, hs.nodup, hs.ids, hs.deps_ok, hs.topo⟩ :
                  Inv g { s with visited_edges_ := s.visited_edges_.insert e })
                (by
                  intro v hvm d hd
                  simp only at hvm
                  rcases List.mem_insert_iff.mp hvm with h1 | h1
                  · subst h1; exact Relation.TransGen.single (hdep d hd)
                  · exact Relation.TransGen.tail (hv v h1) (hdep d hd))
                hloop hr0
              exact ⟨c, Relation.ReflTransGen.head (hdep d hd) hdc, hcc⟩
            · rw [if_neg hr0] at h
              cases h
              exact absurd rfl hr

theorem dedupInto_nil (acc : List Nat) : dedupInto acc [] = acc := rfl

theorem dedupInto_cons (acc : List Nat) (x : Nat) (l : List Nat) :
    dedupInto acc (x :: l) = dedupInto (if x ∈ acc then acc else acc ++ [x]) l := rfl

theorem dedupInto_append (acc l m : List Nat) :
    dedupInto acc (l ++ m) = dedupInto (dedupInto acc l) m := by
  unfold dedupInto
  rw [List.foldl_append]

theorem mem_dedupInto (l : List Nat) :
    ∀ (acc : List Nat) (x : Nat), x ∈ dedupInto acc l ↔ x ∈ acc ∨ x ∈ l := by
  induction l with
  | nil => intro acc x; simp [dedupInto_nil]
  | cons y l ih =>
    intro acc x
    rw [dedupInto_cons, ih]
    by_cases hy : y ∈ acc
    · rw [if_pos hy]
      constructor
      · rintro (h | h)
        · exact Or.inl h
        · exact Or.inr (List.mem_cons_of_mem _ h)
      · rintro (h | h)
        · exact Or.inl h
        · rcases List.mem_cons.mp h with h | h
          · subst h; exact Or.inl hy
          · exact Or.inr h
    · rw [if_neg hy]
      simp only [List.mem_append, List.mem_singleton, List.mem_cons]
      tauto

theorem dedupInto_nodup (l : List Nat) :
    ∀ acc : List Nat, acc.Nodup → (dedupInto acc l).Nodup := by
  induction l with
  | nil => intro acc h; exact h
  | cons y l ih =>
    intro acc h
    rw [dedupInto_cons]
    by_cases hy : y ∈ acc
    · rw [if_pos hy]; exact ih acc h
    · rw [if_neg hy]
      apply ih
      rw [List.nodup_append]
      refine ⟨h, List.nodup_singleton y, ?_⟩
      intro x hx hx1
      rw [List.mem_singleton] at hx1
      subst hx1
      exact hy hx

theorem dedupInto_of_subset (l : List Nat) :
    ∀ acc : List Nat, (∀ x ∈ l, x ∈ acc) → dedupInto acc l = acc := by
  induction l with
  | nil => intro acc _; rfl
  | cons y l ih =>
    intro acc h
    rw [dedupInto_cons, if_pos (h y (List.mem_cons_self _ _))]
    exact ih acc (fun x hx => h x (List.mem_cons_of_mem _ hx))

theorem dedupInto_singleton_new (acc : List Nat) (x : Nat) (h : x ∉ acc) :
    dedupInto acc [x] = acc ++ [x] := by
  rw [dedupInto_cons, if_neg h, dedupInto_nil]

theorem concatMapM_total (f : Nat → Except Fault (List Nat)) (ms : List Nat)
    (h : ∀ m ∈ ms, ∃ l, f m = .ok l) : ∃ L, concatMapM f ms = .ok L := by
  induction ms with
  | nil => exact ⟨[], rfl⟩
  | cons m ms ih =>
    obtain ⟨l, hl⟩ := h m (List.mem_cons_self _ _)
    obtain ⟨rest, hrest⟩ := ih (fun x hx => h x (List.mem_cons_of_mem _ hx))
    exact ⟨l ++ rest, by simp only [concatMapM, hl, hrest]⟩

theorem concatMapM_cons_ok (f : Nat → Except Fault (List Nat)) (m : Nat) (ms : List Nat)
    (L : List Nat) (h : concatMapM f (m :: ms) = .ok L) :
    ∃ lm rest, f m = .ok lm ∧ concatMapM f ms = .ok rest ∧ L = lm ++ rest := by
  simp only [concatMapM] at h
  cases hf : f m with
  | error e => rw [hf] at h; cases h
  | ok lm =>
    rw [hf] at h
    simp only at h
    cases hr : concatMapM f ms with
    | error e => rw [hr] at h; cases h
    | ok rest =>
      rw [hr] at h
      cases h
      exact ⟨lm, rest, rfl, rfl, rfl⟩

theorem expandInputs_succ (g : Graph) (fuel node : Nat) :
    expandInputs g (fuel + 1) node =
      match g.in_edge node with
      | none => .ok [node]
      | some p =>
        if g.is_phony p then
          concatMapM (fun i => expandInputs g fuel i) (g.inputs_ p)
        else .ok [node] := by
  rfl

theorem expandDeps_succ (g : Graph) (fuel node : Nat) :
    expandDeps g (fuel + 1) node =
      match g.in_edge node with
      | none => .ok []
      | some p =>
        if g.is_phony p then
          concatMapM (fun i => expandDeps g fuel i) (g.inputs_ p)
        else .ok [p] := by
  rfl

theorem nodup_bounded_length (n : Nat) (l : List Nat) (hn : l.Nodup)
    (hb : ∀ x ∈ l, x < n) : l.length ≤ n := by
  have h1 : l.toFinset ⊆ Finset.range n := by
    intro x hx
    rw [List.mem_toFinset] at hx
    exact Finset.mem_range.mpr (hb x hx)
  have h2 := Finset.card_le_card h1
  rw [List.toFinset_card_of_nodup hn, Finset.card_range] at h2
  exact h2

theorem expandInputs_total (g : Graph) (hg : g.WellFormed) (hac : PhonyAcyclic g) :
    ∀ (fuel node : Nat) (anc : List Nat), anc.Nodup → (∀ a ∈ anc, a < g.edge_count) →
      (∀ p, g.in_edge node = some p → g.is_phony p = true →
        ∀ a ∈ anc, Relation.TransGen (PhonyStep g) a p) →
      g.edge_count + 1 ≤ fuel + anc.length →
      ∃ l, expandInputs g fuel node = .ok l := by
  intro fuel
  induction fuel with
  | zero =>
    intro node anc hn hb _ hf
    have := nodup_bounded_length g.edge_count anc hn hb
    omega
  | succ fuel ih =>
    intro node anc hn hb hch hf
    rw [expandInputs_succ]
    cases hin : g.in_edge node with
    | none => exact ⟨_, rfl⟩
    | some p =>
      simp only
      cases hph : g.is_phony p with
      | false => exact ⟨_, rfl⟩
      | true =>
        simp only [if_true]
        have hp : p ∉ anc := fun hc => hac p (hch p hin hph p hc)
        apply concatMapM_total
        intro m hm
        apply ih m (p :: anc) (List.nodup_cons.mpr ⟨hp, hn⟩)
        · intro a ha
          rcases List.mem_cons.mp ha with h | h
          · rw [h]; exact hg node p hin
          · exact hb a h
        · intro q hq hqph a ha
          have hstep : PhonyStep g p q := ⟨hph, hqph, m, hm, hq⟩
          rcases List.mem_cons.mp ha with h | h
          · rw [h]; exact Relation.TransGen.single hstep
          · exact Relation.TransGen.tail (hch p hin hph a h) hstep
        · simp only [List.length_cons]
          omega

theorem naiveInputs_total (g : Graph) (hg : g.WellFormed) (hac : PhonyAcyclic g)
    (edge : Nat) : ∃ l, naiveInputs g edge = .ok l := by
  unfold naiveInputs
  apply concatMapM_total
  intro m _
  exact expandInputs_total g hg hac (g.edge_count + 1) m [] List.nodup_nil
    (by intro a ha; cases ha) (by intro p _ _ a ha; cases ha) (by simp)

theorem Collect_fold_refines (g : Graph) (fuel : Nat)
    (ih : ∀ n inputs visited l, expandInputs g fuel n = .ok l →
      (∀ x, x ∈ visited ↔ x ∈ inputs) →
      (∀ x ∈ inputs, ∀ p, g.in_edge x = some p → g.is_phony p = false) →
      ∃ v1, CollectNonPhonyInputs g fuel n (inputs, visited) = .ok (dedupInto inputs l, v1) ∧
        (∀ x, x ∈ v1 ↔ x ∈ dedupInto inputs l) ∧
        (∀ x ∈ dedupInto inputs l, ∀ p, g.in_edge x = some p → g.is_phony p = false)) :
    ∀ (ms : List Nat) (inputs visited L : List Nat),
      concatMapM (fun i => expandInputs g fuel i) ms = .ok L →
      (∀ x, x ∈ visited ↔ x ∈ inputs) →
      (∀ x ∈ inputs, ∀ p, g.in_edge x = some p → g.is_phony p = false) →
      ∃ v1, ms.foldlM (fun st i => CollectNonPhonyInputs g fuel i st) (inputs, visited)
          = .ok (dedupInto inputs L, v1) ∧
        (∀ x, x ∈ v1 ↔ x ∈ dedupInto inputs L) ∧
        (∀ x ∈ dedupInto inputs L, ∀ p, g.in_edge x = some p → g.is_phony p = false) := by
  intro ms
  induction ms with
  | nil =>
    intro inputs visited L h hv hp
    cases h
    exact ⟨visited, rfl, hv, hp⟩
  | cons m ms ihm =>
    intro inputs visited L h hv hp
    obtain ⟨lm, rest, hlm, hrest, hL⟩ := concatMapM_cons_ok _ m ms L h
    obtain ⟨v1, h1, hv1, hp1⟩ := ih m inputs visited lm hlm hv hp
    obtain ⟨v2, h2, hv2, hp2⟩ := ihm (dedupInto inputs lm) v1 rest hrest hv1 hp1
    rw [foldlM_except_cons, h1]
    simp only
    rw [hL, dedupInto_append]
    exact ⟨v2, h2, hv2, hp2⟩

theorem Collect_refines (g : Graph) :
    ∀ (fuel n : Nat) (inputs visited l : List Nat), expandInputs g fuel n = .ok l →
      (∀ x, x ∈ visited ↔ x ∈ inputs) →
      (∀ x ∈ inputs, ∀ p, g.in_edge x = some p → g.is_phony p = false) →
      ∃ v1, CollectNonPhonyInputs g fuel n (inputs, visited) = .ok (dedupInto inputs l, v1) ∧
        (∀ x, x ∈ v1 ↔ x ∈ dedupInto inputs l) ∧
        (∀ x ∈ dedupInto inputs l, ∀ p, g.in_edge x = some p → g.is_phony p = false) := by
  intro fuel
  induction fuel with
  | zero => intro n inputs visited l h; cases h
  | succ fuel ih =>
    intro n inputs visited l h hv hp
    rw [expandInputs_succ] at h
    rw [CollectNonPhonyInputs_succ]
    have leaf : l = [n] → n ∉ visited →
        (∀ p, g.in_edge n = some p → g.is_phony p = false) →
        ∃ v1, (Except.ok (inputs ++ [n], visited.insert n) : Except Fault _)
            = .ok (dedupInto inputs l, v1) ∧
          (∀ x, x ∈ v1 ↔ x ∈ dedupInto inputs l) ∧
          (∀ x ∈ dedupInto inputs l, ∀ p, g.in_edge x = some p → g.is_phony p = false) := by
      intro hl hnv hnp
      have hni : n ∉ inputs := fun hc => hnv ((hv n).mpr hc)
      subst hl
      rw [dedupInto_singleton_new inputs n hni]
      refine ⟨_, rfl, ?_, ?_⟩
      · intro x
        rw [List.mem_insert_iff, List.mem_append, List.mem_singleton, hv x]
        tauto
      · intro x hx p hxp
        rcases List.mem_append.mp hx with hx | hx
        · exact hp x hx p hxp
        · rw [List.mem_singleton] at hx
          subst hx
          exact hnp p hxp
    by_cases hvis : n ∈ visited
    · rw [if_pos hvis]
      have hni : n ∈ inputs := (hv n).mp hvis
      have hl : l = [n] := by
        cases hin : g.in_edge n with
        | none => rw [hin] at h; cases h; rfl
        | some p =>
          rw [hin] at h
          simp only [hp n hni p hin, Bool.false_eq_true, if_false] at h
          cases h
          rfl
      subst hl
      have hd : dedupInto inputs [n] = inputs :=
        dedupInto_of_subset [n] inputs (by
          intro x hx
          rw [List.mem_singleton] at hx
          subst hx
          exact hni)
      rw [hd]
      exact ⟨visited, rfl, hv, hp⟩
    · rw [if_neg hvis]
      cases hin : g.in_edge n with
      | none =>
        rw [hin] at h
        cases h
        exact leaf rfl hvis (by intro p hc; rw [hin] at hc; cases hc)
      | some p =>
        rw [hin] at h
        simp only at h ⊢
        cases hph : g.is_phony p with
        | false =>
          rw [hph] at h
          simp only [Bool.false_eq_true, if_false] at h ⊢
          cases h
          exact leaf rfl hvis (by
            intro q hc
            rw [hin] at hc
            cases hc
            exact hph)
        | true =>
          rw [hph] at h
          simp only [if_true] at h ⊢
          exact Collect_fold_refines g fuel ih (g.inputs_ p) inputs visited l h hv hp

theorem TrueInputs_refines (g : Graph) (edge : Nat) (l : List Nat)
    (h : naiveInputs g edge = .ok l) :
    TrueInputs g edge = .ok (dedupFirst l) ∧
      (∀ x ∈ dedupFirst l, ∀ p, g.in_edge x = some p → g.is_phony p = false) := by
  obtain ⟨v1, h1, _, hp1⟩ := Collect_fold_refines g (g.edge_count + 1)
    (Collect_refines g (g.edge_count + 1)) (g.inputs_ edge) [] [] l h
    (by intro x; simp) (by intro x hx; cases hx)
  unfold TrueInputs
  rw [h1]
  exact ⟨rfl, hp1⟩

theorem concatMapM_mono (f f1 : Nat → Except Fault (List Nat)) (φ : List Nat → List Nat)
    (hφ : ∀ a b, φ (a ++ b) = φ a ++ φ b) (hnil : φ [] = [])
    (hf : ∀ m l, f m = .ok l → f1 m = .ok (φ l)) :
    ∀ (ms : List Nat) (L : List Nat), concatMapM f ms = .ok L →
      concatMapM f1 ms = .ok (φ L) := by
  intro ms
  induction ms with
  | nil => intro L h; cases h; simp only [concatMapM, hnil]
  | cons m ms ih =>
    intro L h
    obtain ⟨lm, rest, hlm, hrest, hL⟩ := concatMapM_cons_ok f m ms L h
    simp only [concatMapM, hf m lm hlm, ih rest hrest, hL, hφ]

theorem concatMapM_mem (f : Nat → Except Fault (List Nat)) :
    ∀ (ms : List Nat) (L : List Nat), concatMapM f ms = .ok L →
      (∀ m ∈ ms, ∃ lm, f m = .ok lm ∧ ∀ x ∈ lm, x ∈ L) ∧
      (∀ x ∈ L, ∃ m ∈ ms, ∃ lm, f m = .ok lm ∧ x ∈ lm) := by
  intro ms
  induction ms with
  | nil =>
    intro L h
    cases h
    exact ⟨(by intro m hm; cases hm), (by intro x hx; cases hx)⟩
  | cons m ms ih =>
    intro L h
    obtain ⟨lm, rest, hlm, hrest, hL⟩ := concatMapM_cons_ok f m ms L h
    obtain ⟨ih1, ih2⟩ := ih rest hrest
    subst hL
    constructor
    · intro m1 hm1
      rcases List.mem_cons.mp hm1 with h1 | h1
      · subst h1
        exact ⟨lm, hlm, fun x hx => List.mem_append_left _ hx⟩
      · obtain ⟨l1, hl1, hsub⟩ := ih1 m1 h1
        exact ⟨l1, hl1, fun x hx => List.mem_append_right _ (hsub x hx)⟩
    · intro x hx
      rcases List.mem_append.mp hx with h1 | h1
      · exact ⟨m, List.mem_cons_self _ _, lm, hlm, h1⟩
      · obtain ⟨m1, hm1, l1, hl1, hx1⟩ := ih2 x h1
        exact ⟨m1, List.mem_cons_of_mem _ hm1, l1, hl1, hx1⟩

theorem expandDeps_fuel_succ (g : Graph) :
    ∀ (fuel n : Nat) (l : List Nat), expandDeps g fuel n = .ok l →
      expandDeps g (fuel + 1) n = .ok l := by
  intro fuel
  induction fuel with
  | zero => intro n l h; cases h
  | succ fuel ih =>
    intro n l h
    rw [expandDeps_succ] at h ⊢
    cases hin : g.in_edge n with
    | none => rw [hin] at h; exact h
    | some p =>
      rw [hin] at h
      simp only at h ⊢
      cases hph : g.is_phony p with
      | false => rw [hph] at h; exact h
      | true =>
        rw [hph] at h
        simp only [if_true] at h ⊢
        have := concatMapM_mono _ (fun i => expandDeps g (fuel + 1) i) id
          (fun _ _ => rfl) rfl (fun m l hl => ih m l hl) _ l h
        exact this

theorem expandDeps_fuel_le (g : Graph) (n : Nat) (l : List Nat) :
    ∀ fuel fuel1, fuel ≤ fuel1 → expandDeps g fuel n = .ok l →
      expandDeps g fuel1 n = .ok l := by
  intro fuel fuel1 hle
  induction hle with
  | refl => exact fun h => h
  | step _ ih => intro h; exact expandDeps_fuel_succ g _ n l (ih h)

theorem expandDeps_det (g : Graph) (n k1 k2 : Nat) (l1 l2 : List Nat)
    (h1 : expandDeps g k1 n = .ok l1) (h2 : expandDeps g k2 n = .ok l2) : l1 = l2 := by
  have a := expandDeps_fuel_le g n l1 k1 (max k1 k2) (le_max_left _ _) h1
  have b := expandDeps_fuel_le g n l2 k2 (max k1 k2) (le_max_right _ _) h2
  rw [a] at b
  cases b
  rfl

theorem expandDeps_of_expandInputs (g : Graph) :
    ∀ (fuel n : Nat) (l : List Nat), expandInputs g fuel n = .ok l →
      expandDeps g fuel n = .ok (l.filterMap g.in_edge) := by
  intro fuel
  induction fuel with
  | zero => intro n l h; cases h
  | succ fuel ih =>
    intro n l h
    rw [expandInputs_succ] at h
    rw [expandDeps_succ]
    cases hin : g.in_edge n with
    | none => rw [hin] at h; cases h; simp [hin]
    | some p =>
      rw [hin] at h
      simp only at h ⊢
      cases hph : g.is_phony p with
      | false =>
        rw [hph] at h
        simp only [Bool.false_eq_true, if_false] at h ⊢
        cases h
        simp [hin]
      | true =>
        rw [hph] at h
        simp only [if_true] at h ⊢
        exact concatMapM_mono _ _ (fun l => l.filterMap g.in_edge)
          (fun a b => List.filterMap_append a b g.in_edge) rfl
          (fun m l hl => ih m l hl) _ l h

theorem naiveDeps_of_naiveInputs (g : Graph) (edge : Nat) (l : List Nat)
    (h : naiveInputs g edge = .ok l) :
    naiveDeps g edge = .ok (l.filterMap g.in_edge) := by
  unfold naiveInputs at h
  unfold naiveDeps
  exact concatMapM_mono _ _ (fun l => l.filterMap g.in_edge)
    (fun a b => List.filterMap_append a b g.in_edge) rfl
    (fun m l hl => expandDeps_of_expandInputs g _ m l hl) _ l h

theorem DfsInv_mono_closed {g : Graph} {result added anc : List Nat} (L : List Nat)
    (h : DfsInv g result added anc) :
    ∀ q ∈ added, g.is_phony q = true → q ∉ anc →
      ∀ m ∈ g.inputs_ q, ∀ k l, expandDeps g k m = .ok l →
        ∀ x ∈ l, x ∈ dedupInto result L :=
  fun q hq hph hanc m hm k l hl x hx =>
    (mem_dedupInto L result x).mpr (Or.inl (h.closed q hq hph hanc m hm k l hl x hx))

theorem FromNode_fold_refines (g : Graph) (fuel : Nat) (anc : List Nat)
    (ih : ∀ n result added (st1 : List Nat × List Nat) k l,
      DfsInv g result added anc → NoReach g n anc →
      FindNonPhonyDepsFromNodeRecursive g fuel n (result, added) = .ok st1 →
      expandDeps g k n = .ok l →
      st1.1 = dedupInto result l ∧ DfsInv g st1.1 st1.2 anc) :
    ∀ (ms : List Nat) (result added : List Nat) (st1 : List Nat × List Nat) (k : Nat)
      (L : List Nat),
      DfsInv g result added anc → (∀ m ∈ ms, NoReach g m anc) →
      ms.foldlM (fun st i => FindNonPhonyDepsFromNodeRecursive g fuel i st) (result, added)
        = .ok st1 →
      concatMapM (fun i => expandDeps g k i) ms = .ok L →
      st1.1 = dedupInto result L ∧ DfsInv g st1.1 st1.2 anc := by
  intro ms
  induction ms with
  | nil =>
    intro result added st1 k L hinv _ h hL
    rw [foldlM_except_nil] at h
    cases h
    cases hL
    exact ⟨rfl, hinv⟩
  | cons m ms ihm =>
    intro result added st1 k L hinv hnr h hL
    obtain ⟨lm, rest, hlm, hrest, hLe⟩ := concatMapM_cons_ok _ m ms L hL
    rw [foldlM_except_cons] at h
    cases hm : FindNonPhonyDepsFromNodeRecursive g fuel m (result, added) with
    | error e => rw [hm] at h; cases h
    | ok st2 =>
      rw [hm] at h
      simp only at h
      obtain ⟨h1, hinv1⟩ := ih m result added st2 k lm hinv
        (hnr m (List.mem_cons_self _ _)) hm hlm
      obtain ⟨h2, hinv2⟩ := ihm st2.1 st2.2 st1 k rest hinv1
        (fun x hx => hnr x (List.mem_cons_of_mem _ hx)) h hrest
      refine ⟨?_, hinv2⟩
      rw [h2, h1, hLe, dedupInto_append]

theorem FromNode_refines (g : Graph) (hac : PhonyAcyclic g) :
    ∀ (fuel n : Nat) (result added anc : List Nat) (st1 : List Nat × List Nat) (k : Nat)
      (l : List Nat),
      DfsInv g result added anc → NoReach g n anc →
      FindNonPhonyDepsFromNodeRecursive g fuel n (result, added) = .ok st1 →
      expandDeps g k n = .ok l →
      st1.1 = dedupInto result l ∧ DfsInv g st1.1 st1.2 anc := by
  intro fuel
  induction fuel with
  | zero => intro n result added anc st1 k l _ _ h; cases h
  | succ fuel ih =>
    intro n result added anc st1 k l hinv hnr h hl
    cases k with
    | zero => cases hl
    | succ k =>
      rw [FromNode_succ] at h
      rw [expandDeps_succ] at hl
      cases hin : g.in_edge n with
      | none =>
        rw [hin] at h hl
        cases h
        cases hl
        exact ⟨rfl, hinv⟩
      | some e =>
        rw [hin] at h hl
        simp only at h hl
        cases hph : g.is_phony e with
        | false =>
          rw [hph] at h hl
          simp only [Bool.false_eq_true, if_false] at h hl
          cases hl
          by_cases hmem : e ∈ added
          · rw [if_pos hmem] at h
            cases h
            have her : e ∈ result := (hinv.real e hph).mp hmem
            have hd : dedupInto result [e] = result :=
              dedupInto_of_subset [e] result (by
                intro x hx
                rw [List.mem_singleton] at hx
                subst hx
                exact her)
            exact ⟨hd.symm, hinv⟩
          · rw [if_neg hmem] at h
            cases h
            have her : e ∉ result := fun hc => hmem ((hinv.real e hph).mpr hc)
            refine ⟨(dedupInto_singleton_new result e her).symm, ?_, ?_⟩
            · intro x hx
              simp only [List.mem_insert_iff, List.mem_append, List.mem_singleton]
              rw [hinv.real x hx]
              tauto
            · intro q hq hqph hqa m hm k2 l2 hl2 x hx
              simp only at hq
              rcases List.mem_insert_iff.mp hq with h1 | h1
              · subst h1; rw [hph] at hqph; cases hqph
              · exact List.mem_append_left _ (hinv.closed q h1 hqph hqa m hm k2 l2 hl2 x hx)
        | true =>
          rw [hph] at h hl
          simp only [if_true] at h hl
          have hea : e ∉ anc := fun hc => hnr e hin hph e hc Relation.ReflTransGen.refl
          by_cases hmem : e ∈ added
          · rw [if_pos hmem] at h
            cases h
            have hsub : ∀ x ∈ l, x ∈ result := by
              intro x hx
              obtain ⟨m, hm, lm, hlm, hxm⟩ := (concatMapM_mem _ _ l hl).2 x hx
              exact hinv.closed e hmem hph hea m hm k lm hlm x hxm
            exact ⟨(dedupInto_of_subset l result hsub).symm, hinv⟩
          · rw [if_neg hmem] at h
            have hinv0 : DfsInv g result (added.insert e) (e :: anc) := by
              constructor
              · intro x hx
                rw [List.mem_insert_iff, ← hinv.real x hx]
                constructor
                · rintro (h1 | h1)
                  · subst h1; rw [hph] at hx; cases hx
                  · exact h1
                · exact Or.inr
              · intro q hq hqph hqa m hm k2 l2 hl2 x hx
                rcases List.mem_insert_iff.mp hq with h1 | h1
                · subst h1; exact absurd (List.mem_cons_self _ _) hqa
                · exact hinv.closed q h1 hqph
                    (fun hc => hqa (List.mem_cons_of_mem _ hc)) m hm k2 l2 hl2 x hx
            have hnr0 : ∀ m ∈ g.inputs_ e, NoReach g m (e :: anc) := by
              intro m hm q hq hqph a ha hreach
              have hstep : PhonyStep g e q := ⟨hph, hqph, m, hm, hq⟩
              rcases List.mem_cons.mp ha with h1 | h1
              · subst h1
                exact hac a (Relation.TransGen.head' hstep hreach)
              · exact hnr e hin hph a h1 (Relation.ReflTransGen.head hstep hreach)
            obtain ⟨h1, hinv1⟩ := FromNode_fold_refines g fuel (e :: anc)
              (fun n result added st1 k l hi hn hf he =>
                ih n result added (e :: anc) st1 k l hi hn hf he)
              (g.inputs_ e) result (added.insert e) st1 k l hinv0 hnr0 h hl
            refine ⟨h1, hinv1.real, ?_⟩
            intro q hq hqph hqa m hm k2 l2 hl2 x hx
            by_cases hqe : q = e
            · subst hqe
              obtain ⟨lm, hlm, hsub⟩ := (concatMapM_mem _ _ l hl).1 m hm
              have := expandDeps_det g m k2 k l2 lm hl2 hlm
              subst this
              rw [h1]
              exact (mem_dedupInto l result x).mpr (Or.inr (hsub x hx))
            · exact hinv1.closed q hq hqph
                (fun hc => by
                  rcases List.mem_cons.mp hc with h2 | h2
                  · exact hqe h2
                  · exact hqa h2) m hm k2 l2 hl2 x hx

theorem FindNonPhonyDeps_refines (g : Graph) (hac : PhonyAcyclic g) (edge : Nat)
    (l deps : List Nat) (hl : naiveDeps g edge = .ok l)
    (hd : FindNonPhonyDeps g edge = .ok deps) : deps = dedupFirst l := by
  unfold FindNonPhonyDeps at hd
  cases hr : FindNonPhonyDepsRecursive g (g.edge_count + 1) edge ([], []) with
  | error f => rw [hr] at hd; cases hd
  | ok st =>
    rw [hr] at hd
    obtain ⟨result, added⟩ := st
    cases hd
    unfold FindNonPhonyDepsRecursive at hr
    unfold naiveDeps at hl
    have := FromNode_fold_refines g (g.edge_count + 1) []
      (fun n result added st1 k l hi hn hf he =>
        FromNode_refines g hac _ n result added [] st1 k l hi hn hf he)
      (g.inputs_ edge) [] [] (deps, added) _ l
      ⟨(by intro x _; simp), (by intro q hq; cases hq)⟩
      (by intro m _ p _ _ a ha; cases ha) hr hl
    exact this.1

theorem dedupInto_filterMap (f : Nat → Option Nat) (l : List Nat) :
    ∀ accN : List Nat,
      dedupInto [] ((dedupInto accN l).filterMap f) =
        dedupInto (dedupInto [] (accN.filterMap f)) (l.filterMap f) := by
  induction l with
  | nil => intro accN; rfl
  | cons x xs ih =>
    intro accN
    rw [dedupInto_cons]
    have hsplit : (x :: xs).filterMap f = [x].filterMap f ++ xs.filterMap f := by
      rw [← List.filterMap_append]; rfl
    by_cases hx : x ∈ accN
    · rw [if_pos hx, ih accN, hsplit, dedupInto_append]
      congr 1
      symm
      apply dedupInto_of_subset
      intro y hy
      rw [mem_dedupInto]
      right
      rw [List.mem_filterMap] at hy ⊢
      obtain ⟨a, ha, hfa⟩ := hy
      rw [List.mem_singleton] at ha
      subst ha
      exact ⟨a, hx, hfa⟩
    · rw [if_neg hx, ih (accN ++ [x]), hsplit, dedupInto_append, List.filterMap_append,
        dedupInto_append]

theorem dedupFirst_filterMap (f : Nat → Option Nat) (l : List Nat) :
    dedupFirst ((dedupFirst l).filterMap f) = dedupFirst (l.filterMap f) := by
  unfold dedupFirst
  rw [dedupInto_filterMap]
  rfl

theorem acyclic_of_rank (g : Graph) (rank : Nat → Nat)
    (h : ∀ p q, PhonyStep g p q → rank q < rank p) : PhonyAcyclic g := by
  have key : ∀ p q, Relation.TransGen (PhonyStep g) p q → rank q < rank p := by
    intro p q hpq
    induction hpq with
    | single hs => exact h _ _ hs
    | tail _ hs ih => exact lt_trans (h _ _ hs) ih
  intro p hp
  exact lt_irrefl _ (key p p hp)

theorem aliasGraph_wf : aliasGraph.WellFormed := by
  intro n e h
  simp only [aliasGraph] at h ⊢
  rcases n with _ | _ | _ | _ | _ | _ | _ | n <;> simp [List.getD] at h <;> omega

theorem aliasGraph_acyclic : PhonyAcyclic aliasGraph := by
  apply acyclic_of_rank aliasGraph (fun e => if e = 1 then 1 else 0)
  rintro p q ⟨hp, hq, m, hm, hmq⟩
  simp only [aliasGraph, Bool.or_eq_true, beq_iff_eq] at hp hq
  rcases hp with hp | hp <;> rcases hq with hq | hq <;> subst hp <;> subst hq
  · simp [aliasGraph, List.getD] at hm hmq
    rcases hm with h | h | h <;> subst h <;> simp at hmq
  · simp
  · simp [aliasGraph, List.getD] at hm hmq
    rcases hm with h | h <;> subst h <;> simp at hmq
  · simp [aliasGraph, List.getD] at hm hmq
    rcases hm with h | h <;> subst h <;> simp at hmq

theorem scan_nil : jsonScan [] [] false false false = true := rfl

theorem scan_in_string_plain (c : Char) (h1 : c ≠ '\\') (h2 : c ≠ '"')
    (cs stack : List Char) (ac : Bool) :
    jsonScan (c :: cs) stack true false ac = jsonScan cs stack true false ac := by
  simp [jsonScan, h1, h2]

theorem scan_in_string_escape (c : Char) (cs stack : List Char) (ac : Bool) :
    jsonScan ('\\' :: c :: cs) stack true false ac = jsonScan cs stack true false ac := by
  simp [jsonScan]

theorem scan_escapeOf (c : Char) (cs stack : List Char) (ac : Bool) :
    jsonScan ((escapeOf c).data ++ cs) stack true false ac
      = jsonScan cs stack true false ac := by
  unfold escapeOf
  split_ifs with h1 h2 h3 h4
  · show jsonScan ('\\' :: '\\' :: cs) stack true false ac = _
    rw [scan_in_string_escape]
  · show jsonScan ('\\' :: '"' :: cs) stack true false ac = _
    rw [scan_in_string_escape]
  · show jsonScan ('\\' :: 'r' :: cs) stack true false ac = _
    rw [scan_in_string_escape]
  · show jsonScan ('\\' :: 'n' :: cs) stack true false ac = _
    rw [scan_in_string_escape]
  · show jsonScan (c :: cs) stack true false ac = _
    rw [scan_in_string_plain c h1 h2]

theorem scan_in_string_escaped (w : List Char) (cs stack : List Char) (ac : Bool) :
    jsonScan (w.flatMap (fun c => (escapeOf c).data) ++ cs) stack true false ac
      = jsonScan cs stack true false ac := by
  induction w with
  | nil => rfl
  | cons c w ih =>
    rw [List.flatMap_cons, List.append_assoc, scan_escapeOf, ih]

theorem WriteAllInputs_total (g : Graph) (hg : g.WellFormed) (hac : PhonyAcyclic g)
    (edge : Nat) : ∃ calls, WriteAllInputs g edge = .ok calls := by
  obtain ⟨l, hl⟩ := naiveInputs_total g hg hac edge
  unfold WriteAllInputs
  rw [(TrueInputs_refines g edge l hl).1]
  exact ⟨_, rfl⟩

theorem WriteEdge_listed_ok (g : Graph) (s : JsonGraphTool) (hs : Inv g s) (a : Nat)
    (ha : a ∈ s.edges_) (is_first : Bool) (hw : ∃ ic, WriteAllInputs g a = .ok ic) :
    ∃ calls, WriteEdge g a s.edge_idxs_ is_first = .ok (calls, s.edge_idxs_) := by
  rcases WriteEdge_listed g s hs a ha is_first with h | h
  · exfalso
    obtain ⟨ic, hic⟩ := hw
    obtain ⟨deps, hdeps⟩ := hs.deps_ok a ha
    have hid := Inv_mem_id hs ha
    have hdep : ∀ d ∈ deps, ∃ ib, s.edge_idxs_ d = some ib ∧
        ib ≤ ((s.edges_.indexOf a : Nat) + 1 : Int) := by
      intro d hd
      obtain ⟨ib, hib, hlt⟩ := hs.topo a _ deps hid hdeps d hd
      exact ⟨ib, hib, le_of_lt hlt⟩
    obtain ⟨calls, hc⟩ := WriteEdgeDeps_ok _ s.edge_idxs_ deps true hdep
    unfold WriteEdge at h
    rw [mapIndex_of_some hid] at h
    simp only [hdeps, hc, hic] at h
    cases h
  · exact h

theorem WriteEdges_listed_ok (g : Graph) (s : JsonGraphTool) (hs : Inv g s)
    (hw : ∀ a, ∃ ic, WriteAllInputs g a = .ok ic) :
    ∀ (l : List Nat) (is_first : Bool), (∀ a ∈ l, a ∈ s.edges_) →
      ∃ calls, WriteEdges g l is_first s.edge_idxs_ = .ok (calls, s.edge_idxs_) := by
  intro l
  induction l with
  | nil => intro _ _; exact ⟨[], rfl⟩
  | cons a l ih =>
    intro is_first h
    obtain ⟨c1, h1⟩ := WriteEdge_listed_ok g s hs a (h a (List.mem_cons_self _ _)) is_first
      (hw a)
    obtain ⟨c2, h2⟩ := ih false (fun x hx => h x (List.mem_cons_of_mem _ hx))
    exact ⟨c1 ++ c2, by simp only [WriteEdges, h1, h2]⟩

theorem acyclic_of_no_step (g : Graph) (h : ∀ p q, ¬ PhonyStep g p q) : PhonyAcyclic g :=
  acyclic_of_rank g (fun _ => 0) (fun p q hpq => absurd hpq (h p q))

theorem scenarioGraph_acyclic : PhonyAcyclic scenarioGraph := by
  apply acyclic_of_no_step
  rintro p q ⟨hp, hq, m, hm, hmq⟩
  simp only [scenarioGraph, beq_iff_eq] at hp hq
  subst hp
  subst hq
  simp [scenarioGraph, List.getD] at hm hmq
  rcases hm with h | h <;> subst h <;> simp at hmq

theorem Flush_targets (g : Graph) (hg : g.WellFormed) (hac : PhonyAcyclic g)
    (build_dir : String) (nodes : List Nat) (s : JsonGraphTool)
    (h : AddRootTargets g build_dir nodes = .ok s) :
    s.root_nodes_ = nodes ∧
    ∃ node_calls,
      Flush g s = .ok
        ([.StartObject false, .StartObjectProperty "Graph" false,
          .StartArrayProperty "Nodes" false]
        ++ node_calls
        ++ [.EndArray, .StartArrayProperty "Targets" true]
        ++ targetEntries (nodes.map (fun n => (g.path n, rootRef g s.edge_idxs_ n))) true
        ++ [.EndArray, .EndObject, .StringProperty "FailureReason" "" true, .EndObject]) := by
  obtain ⟨hroots, hinv⟩ := AddRootTargets_roots g nodes _ s (Inv_new g build_dir) h
  have hr : s.root_nodes_ = nodes := by simpa [JsonGraphTool.new] using hroots
  refine ⟨hr, ?_⟩
  obtain ⟨nc, h1⟩ := WriteEdges_listed_ok g s hinv (WriteAllInputs_total g hg hac)
    s.edges_ true (fun _ hx => hx)
  refine ⟨nc, ?_⟩
  unfold Flush
  rw [h1]
  simp only
  rw [WriteRootTargets_eq g s.edge_idxs_ s.root_nodes_ true s.edge_idxs_ (fun _ => rfl), hr]

theorem phonyLoop_collect_diverges :
    ∀ fuel inputs visited, 0 ∉ visited → 1 ∉ visited →
      CollectNonPhonyInputs phonyLoopGraph fuel 0 (inputs, visited) = .error .OutOfFuel ∧
      CollectNonPhonyInputs phonyLoopGraph fuel 1 (inputs, visited) = .error .OutOfFuel := by
  intro fuel
  induction fuel with
  | zero => intro inputs visited _ _; exact ⟨rfl, rfl⟩
  | succ fuel ih =>
    intro inputs visited hv0 hv1
    obtain ⟨ih0, ih1⟩ := ih inputs visited hv0 hv1
    have e0 : phonyLoopGraph.in_edge 0 = some 0 := rfl
    have e1 : phonyLoopGraph.in_edge 1 = some 1 := rfl
    have p0 : phonyLoopGraph.is_phony 0 = true := rfl
    have p1 : phonyLoopGraph.is_phony 1 = true := rfl
    have i0 : phonyLoopGraph.inputs_ 0 = [1] := rfl
    have i1 : phonyLoopGraph.inputs_ 1 = [0] := rfl
    constructor
    · rw [CollectNonPhonyInputs_succ, if_neg hv0, e0]
      simp only [p0, if_true, i0]
      rw [foldlM_except_cons, ih1]
    · rw [CollectNonPhonyInputs_succ, if_neg hv1, e1]
      simp only [p1, if_true, i1]
      rw [foldlM_except_cons, ih0]

theorem jsonParses_rejects :
    jsonParses "" = false ∧ jsonParses "[,1]" = false ∧ jsonParses "[1,]" = false ∧
    jsonParses "[1 2]" = false ∧ jsonParses "[1,,2]" = false ∧
    jsonParses "\x7b\"a\" \"b\"\x7d" = false ∧ jsonParses "\x7b\"a\": 1,\x7d" = false ∧
    jsonParses "\x7b\"a\": 1 \"b\": 2\x7d" = false ∧ jsonParses "[] []" = false ∧
    jsonParses "[\x7d" = false ∧ jsonParses "[" = false ∧ jsonParses "\"a\tb\"" = false ∧
    jsonParses "01" = false ∧ jsonParses "tru" = false := by
  decide

theorem jsonParses_accepts :
    jsonParses "[]" = true ∧ jsonParses "\x7b\x7d" = true ∧
    jsonParses " [1, -2.5e+3, true, false, null, \"a\\n\\u00e9\"] " = true ∧
    jsonParses "\x7b\"a\": \x7b\"b\": [\x7b\x7d, []]\x7d, \"c\": \"d\"\x7d" = true := by
  decide

/-! ## The claims -/

set_option maxRecDepth 100000

/-- C1: in every session reached by `AddRootTarget` calls, every edge `a` of
`edges_` has its dependencies computed, and every edge `b` of
`FindNonPhonyDeps(a)` has an id strictly smaller than the id of `a`; so
`WriteEdge` on a listed edge, and `Flush`, never take the `Unknown edge` or the
`Wrong topo-sort` exit. -/
theorem C1_dependency_ids_strictly_smaller (g : Graph) (s : JsonGraphTool)
    (h : Reachable g s) :
    (∀ a ∈ s.edges_, ∃ deps, FindNonPhonyDeps g a = .ok deps ∧
      ∀ b ∈ deps, ∃ ia ib,
        s.edge_idxs_ a = some ia ∧ s.edge_idxs_ b = some ib ∧ ib < ia) ∧
    (∀ a ∈ s.edges_, ∀ is_first msg,
      WriteEdge g a s.edge_idxs_ is_first ≠ .error (.Exit msg)) ∧
    (∀ msg, Flush g s ≠ .error (.Exit msg)) := by
  have hs := Reachable_Inv g s h
  refine ⟨?_, ?_, ?_⟩
  · intro a ha
    obtain ⟨deps, hdeps⟩ := hs.deps_ok a ha
    refine ⟨deps, hdeps, ?_⟩
    intro b hb
    have hia := Inv_mem_id hs ha
    obtain ⟨ib, hib, hlt⟩ := hs.topo a _ deps hia hdeps b hb
    exact ⟨_, ib, hia, hib, hlt⟩
  · intro a ha is_first msg hc
    rcases WriteEdge_listed g s hs a ha is_first with h1 | ⟨c, h1⟩
    · rw [h1] at hc; cases hc
    · rw [h1] at hc; cases hc
  · intro msg hc
    rcases Flush_listed g s hs with h1 | ⟨c, h1⟩
    · rw [h1] at hc; cases hc
    · rw [h1] at hc; cases hc

/-- C1 at the scenario graph after `AddRootTarget(app)`. -/
theorem C1_witness :
    (∀ a ∈ (sessionAfter scenarioGraph [0]).edges_,
      ∃ deps, FindNonPhonyDeps scenarioGraph a = .ok deps ∧
      ∀ b ∈ deps, ∃ ia ib,
        (sessionAfter scenarioGraph [0]).edge_idxs_ a = some ia ∧
        (sessionAfter scenarioGraph [0]).edge_idxs_ b = some ib ∧ ib < ia) ∧
    (∀ a ∈ (sessionAfter scenarioGraph [0]).edges_, ∀ is_first msg,
      WriteEdge scenarioGraph a (sessionAfter scenarioGraph [0]).edge_idxs_ is_first
        ≠ .error (.Exit msg)) ∧
    (∀ msg, Flush scenarioGraph (sessionAfter scenarioGraph [0]) ≠ .error (.Exit msg)) :=
  C1_dependency_ids_strictly_smaller scenarioGraph (sessionAfter scenarioGraph [0])
    scenario_app_reachable

/-- C3: in every reached session `edges_` has no duplicates, and a further
`AddRootTarget` call only appends to it: the list before the call is a prefix
of the list after the call, which again has no duplicates, so an edge keeps
the position of its first insertion and is never appended again. -/
theorem C3_final_list_without_duplicates (g : Graph) (s : JsonGraphTool)
    (h : Reachable g s) :
    s.edges_.Nodup ∧
    ∀ node s1, AddRootTarget g s node = .ok s1 →
      s.edges_ <+: s1.edges_ ∧ s1.edges_.Nodup := by
  have hs := Reachable_Inv g s h
  refine ⟨hs.nodup, ?_⟩
  intro node s1 hstep
  obtain ⟨_, _, hinv, _, ⟨new, hext, _⟩⟩ := AddRootTarget_spec g s s1 node hs hstep
  exact ⟨⟨new, hext.symm⟩, hinv.nodup⟩

/-- C3 at the scenario graph after `AddRootTarget(objs)`; the next call
`AddRootTarget(app)` reaches `cc1` and `cc2` again. -/
theorem C3_witness :
    (sessionAfter scenarioGraph [1]).edges_.Nodup ∧
    ∀ node s1, AddRootTarget scenarioGraph (sessionAfter scenarioGraph [1]) node = .ok s1 →
      (sessionAfter scenarioGraph [1]).edges_ <+: s1.edges_ ∧ s1.edges_.Nodup :=
  C3_final_list_without_duplicates scenarioGraph (sessionAfter scenarioGraph [1])
    scenario_objs_reachable

/-- C4: in every reached session the edge at 0-based position `i` of `edges_`
has id `i + 1`, `last_edge_idx_` is the length of `edges_`, every id is
positive and belongs to a listed edge, no two edges share an id, and a further
`AddRootTarget` call keeps every id that is assigned. -/
theorem C4_ids_number_the_final_list (g : Graph) (s : JsonGraphTool)
    (h : Reachable g s) :
    (∀ i (hi : i < s.edges_.length),
      s.edge_idxs_ (s.edges_.get ⟨i, hi⟩) = some ((i : Int) + 1)) ∧
    s.last_edge_idx_ = (s.edges_.length : Int) ∧
    (∀ e i, s.edge_idxs_ e = some i → 0 < i ∧ e ∈ s.edges_) ∧
    (∀ e1 e2 i, s.edge_idxs_ e1 = some i → s.edge_idxs_ e2 = some i → e1 = e2) ∧
    (∀ node s1, AddRootTarget g s node = .ok s1 →
      ∀ e i, s.edge_idxs_ e = some i → s1.edge_idxs_ e = some i) := by
  have hs := Reachable_Inv g s h
  refine ⟨?_, hs.last, ?_, ?_, ?_⟩
  · intro i hi
    have hmem : s.edges_.get ⟨i, hi⟩ ∈ s.edges_ := List.get_mem _ _ _
    rw [Inv_mem_id hs hmem]
    have := List.get_indexOf hs.nodup ⟨i, hi⟩
    simp only at this
    rw [this]
  · intro e i he
    exact ⟨(Inv_id_bounds hs he).1, (Inv_id_mem hs he).1⟩
  · intro e1 e2 i h1 h2
    obtain ⟨m1, i1⟩ := Inv_id_mem hs h1
    obtain ⟨m2, i2⟩ := Inv_id_mem hs h2
    have : s.edges_.indexOf e1 = s.edges_.indexOf e2 := by omega
    exact (List.indexOf_inj m1 m2).mp this
  · intro node s1 hstep e i he
    obtain ⟨_, _, hinv, _, ⟨new, hext, _⟩⟩ := AddRootTarget_spec g s s1 node hs hstep
    exact Inv_ids_mono hs hinv hext he

/-- C4 at the scenario graph after `AddRootTarget(app)`. -/
theorem C4_witness :
    (∀ i (hi : i < (sessionAfter scenarioGraph [0]).edges_.length),
      (sessionAfter scenarioGraph [0]).edge_idxs_
        ((sessionAfter scenarioGraph [0]).edges_.get ⟨i, hi⟩) = some ((i : Int) + 1)) ∧
    (sessionAfter scenarioGraph [0]).last_edge_idx_ =
      ((sessionAfter scenarioGraph [0]).edges_.length : Int) ∧
    (∀ e i, (sessionAfter scenarioGraph [0]).edge_idxs_ e = some i →
      0 < i ∧ e ∈ (sessionAfter scenarioGraph [0]).edges_) ∧
    (∀ e1 e2 i, (sessionAfter scenarioGraph [0]).edge_idxs_ e1 = some i →
      (sessionAfter scenarioGraph [0]).edge_idxs_ e2 = some i → e1 = e2) ∧
    (∀ node s1, AddRootTarget scenarioGraph (sessionAfter scenarioGraph [0]) node = .ok s1 →
      ∀ e i, (sessionAfter scenarioGraph [0]).edge_idxs_ e = some i →
        s1.edge_idxs_ e = some i) :=
  C4_ids_number_the_final_list scenarioGraph (sessionAfter scenarioGraph [0])
    scenario_app_reachable

/-- C5: in every reached session, an edge `e` from which a cycle of the
phony-resolved dependency relation is reachable (`e` reaches some `c` in zero
or more steps and `c` reaches itself in one or more steps; `e` lies on the
cycle when `e = c`) has no id and is not in `edges_`. -/
theorem C5_cyclic_edges_get_no_id (g : Graph) (s : JsonGraphTool)
    (h : Reachable g s) (e c : Nat)
    (hreach : Relation.ReflTransGen (Dep g) e c)
    (hcycle : Relation.TransGen (Dep g) c c) :
    s.edge_idxs_ e = none ∧ e ∉ s.edges_ := by
  have hs := Reachable_Inv g s h
  have hnone : s.edge_idxs_ e = none := by
    cases hid : s.edge_idxs_ e with
    | none => rfl
    | some ie =>
      exfalso
      obtain ⟨ic, hic, _⟩ := Inv_reflTransGen_le hs hreach ie hid
      obtain ⟨ic2, hic2, hlt⟩ := Inv_transGen_lt hs hcycle ic hic
      rw [hic] at hic2
      cases hic2
      exact lt_irrefl _ hlt
  refine ⟨hnone, ?_⟩
  intro hmem
  rw [Inv_mem_id hs hmem] at hnone
  cases hnone

/-- C5 at the graph of two edges that depend on each other, after
`AddRootTarget(a.out)`: edge 0 lies on the cycle 0, 1, 0. -/
theorem C5_witness :
    Relation.ReflTransGen (Dep cycleGraph) 0 0 ∧
    Relation.TransGen (Dep cycleGraph) 0 0 ∧
    (sessionAfter cycleGraph [0]).edge_idxs_ 0 = none ∧
    0 ∉ (sessionAfter cycleGraph [0]).edges_ :=
  have hcycle : Relation.TransGen (Dep cycleGraph) 0 0 :=
    Relation.TransGen.tail
      (Relation.TransGen.single ⟨[1], rfl, List.mem_singleton.mpr rfl⟩)
      ⟨[0], rfl, List.mem_singleton.mpr rfl⟩
  ⟨Relation.ReflTransGen.refl, hcycle,
    C5_cyclic_edges_get_no_id cycleGraph (sessionAfter cycleGraph [0]) cycle_reachable 0 0
      Relation.ReflTransGen.refl hcycle⟩

/-- C2: the scenario of spec section 8.  `AddRootTarget(app)` on a fresh
session returns with `edges_ = [cc1, cc2, link]`, ids 1, 2, 3 and no id for the
phony edge; `FindNonPhonyDeps(link) = [cc1, cc2]`; the calls `WriteEdge` makes
for `link` carry the references 1 then 2 and the inputs `obj1.o`, `obj2.o`;
the calls for the `Targets` array are the single entry `app` with reference
3. -/
theorem C2_scenario :
    (AddRootTarget scenarioGraph (JsonGraphTool.new "") 0).map
        (fun s => (s.edges_, s.root_nodes_)) = .ok ([2, 3, 0], [0]) ∧
    ((sessionAfter scenarioGraph [0]).edges_ = [2, 3, 0] ∧
      (sessionAfter scenarioGraph [0]).root_nodes_ = [0] ∧
      (sessionAfter scenarioGraph [0]).edge_idxs_ 2 = some 1 ∧
      (sessionAfter scenarioGraph [0]).edge_idxs_ 3 = some 2 ∧
      (sessionAfter scenarioGraph [0]).edge_idxs_ 0 = some 3 ∧
      (sessionAfter scenarioGraph [0]).edge_idxs_ 1 = none) ∧
    FindNonPhonyDeps scenarioGraph 0 = .ok [2, 3] ∧
    (WriteEdge scenarioGraph 0 (sessionAfter scenarioGraph [0]).edge_idxs_ false).map
        Prod.fst =
      .ok [.StartObject true,
           .NumericalStringProperty "$id" 3 false,
           .StringProperty "rule" "link" true,
           .StringProperty "command" "ld -o app obj1.o obj2.o" true,
           .StartArrayProperty "dependencies" true,
           .StartObject false, .NumericalStringProperty "$ref" 1 false, .EndObject,
           .StartObject true, .NumericalStringProperty "$ref" 2 false, .EndObject,
           .EndArray,
           .StartArrayProperty "inputs" true,
           .String_ "obj1.o" false, .String_ "obj2.o" true,
           .EndArray,
           .StartArrayProperty "outputs" true,
           .String_ "app" false,
           .EndArray,
           .EndObject] ∧
    (WriteRootTargets scenarioGraph (sessionAfter scenarioGraph [0]).root_nodes_ true
        (sessionAfter scenarioGraph [0]).edge_idxs_).1 =
      [.StartObject false,
       .StringProperty "name" "app" false,
       .StartObjectProperty "producer_node" true,
       .NumericalStringProperty "$ref" 3 false,
       .EndObject,
       .EndObject] ∧
    Flush scenarioGraph (sessionAfter scenarioGraph [0]) =
      .ok ([.StartObject false,
            .StartObjectProperty "Graph" false,
            .StartArrayProperty "Nodes" false,
            .StartObject false,
            .NumericalStringProperty "$id" 1 false,
            .StringProperty "rule" "cc" true,
            .StringProperty "command" "cc -c src1.c" true,
            .StartArrayProperty "dependencies" true,
            .EndArray,
            .StartArrayProperty "inputs" true,
            .String_ "src1.c" false,
            .EndArray,
            .StartArrayProperty "outputs" true,
            .String_ "obj1.o" false,
            .EndArray,
            .EndObject,
            .StartObject true,
            .NumericalStringProperty "$id" 2 false,
            .StringProperty "rule" "cc" true,
            .StringProperty "command" "cc -c src2.c" true,
            .StartArrayProperty "dependencies" true,
            .EndArray,
            .StartArrayProperty "inputs" true,
            .String_ "src2.c" false,
            .EndArray,
            .StartArrayProperty "outputs" true,
            .String_ "obj2.o" false,
            .EndArray,
            .EndObject,
            .StartObject true,
            .NumericalStringProperty "$id" 3 false,
            .StringProperty "rule" "link" true,
            .StringProperty "command" "ld -o app obj1.o obj2.o" true,
            .StartArrayProperty "dependencies" true,
            .StartObject false, .NumericalStringProperty "$ref" 1 false, .EndObject,
            .StartObject true, .NumericalStringProperty "$ref" 2 false, .EndObject,
            .EndArray,
            .StartArrayProperty "inputs" true,
            .String_ "obj1.o" false, .String_ "obj2.o" true,
            .EndArray,
            .StartArrayProperty "outputs" true,
            .String_ "app" false,
            .EndArray,
            .EndObject,
            .EndArray,
            .StartArrayProperty "Targets" true,
            .StartObject false,
            .StringProperty "name" "app" false,
            .StartObjectProperty "producer_node" true,
            .NumericalStringProperty "$ref" 3 false,
            .EndObject,
            .EndObject,
            .EndArray,
            .EndObject,
            .StringProperty "FailureReason" "" true,
            .EndObject]) := by
  refine ⟨by decide, by decide, by decide, by decide, by decide, by decide⟩

/-- C6 at the failing input: on the graph of two edges that depend on each
other, `AddRootTarget(a.out)` runs `TopoAddEdge`, which returns the cycle
signal 1, and `Flush` then writes a document whose `FailureReason` is the
empty string. -/
theorem C6_cycle_flushed_as_success :
    (AddRootTargetSignal cycleGraph (JsonGraphTool.new "") 0).map Prod.fst = .ok 1 ∧
    (AddRootTargets cycleGraph "" [0]).map (fun s => s.root_nodes_) = .ok [0] ∧
    Flush cycleGraph (sessionAfter cycleGraph [0]) =
      .ok [.StartObject false,
           .StartObjectProperty "Graph" false,
           .StartArrayProperty "Nodes" false,
           .EndArray,
           .StartArrayProperty "Targets" true,
           .StartObject false,
           .StringProperty "name" "a.out" false,
           .StartObjectProperty "producer_node" true,
           .NumericalStringProperty "$ref" 0 false,
           .EndObject,
           .EndObject,
           .EndArray,
           .EndObject,
           .StringProperty "FailureReason" "" true,
           .EndObject] ∧
    FlushText cycleGraph (sessionAfter cycleGraph [0]) =
      .ok ("\x7b\n  \"Graph\": \x7b\n    \"Nodes\": [\n\n    ],\n" ++
        "    \"Targets\": [\n      \x7b\n        \"name\": \"a.out\",\n" ++
        "        \"producer_node\": \x7b\n          \"$ref\": \"0\"\n        \x7d\n" ++
        "      \x7d\n    ]\n  \x7d,\n  \"FailureReason\": \"\"\n\x7d") := by
  refine ⟨by decide, by decide, by decide, by decide⟩

/-- C7 at the failing input: on the graph of two edges that depend on each
other, after `AddRootTarget(a.out)` the root `a.out` has the producing edge 0,
`edges_` is empty, so `Flush` writes no entry to `Graph.Nodes`, and the
`Targets` entry of `a.out` carries the reference 0. -/
theorem C7_target_reference_unresolved :
    (AddRootTargets cycleGraph "" [0]).map (fun s => (s.root_nodes_, s.edges_)) =
      .ok ([0], []) ∧
    cycleGraph.in_edge 0 = some 0 ∧
    (WriteEdges cycleGraph (sessionAfter cycleGraph [0]).edges_ true
        (sessionAfter cycleGraph [0]).edge_idxs_).map Prod.fst = .ok [] ∧
    (WriteRootTargets cycleGraph (sessionAfter cycleGraph [0]).root_nodes_ true
        (sessionAfter cycleGraph [0]).edge_idxs_).1 =
      [.StartObject false,
       .StringProperty "name" "a.out" false,
       .StartObjectProperty "producer_node" true,
       .NumericalStringProperty "$ref" 0 false,
       .EndObject,
       .EndObject] := by
  refine ⟨by decide, by decide, by decide, by decide⟩

/-- C8 fails as stated: on the scenario graph, `AddRootTarget(objs)` on a
fresh session gives the phony edge 1, the producing edge of `objs`, the id 3
and appends it to `edges_`; `Flush` writes it to `Graph.Nodes`. -/
theorem C8_counterexample :
    scenarioGraph.is_phony 1 = true ∧
    (AddRootTarget scenarioGraph (JsonGraphTool.new "") 1).map
        (fun s => (s.edges_, s.edge_idxs_ 1)) = .ok ([2, 3, 1], some 3) ∧
    (WriteEdge scenarioGraph 1 (sessionAfter scenarioGraph [1]).edge_idxs_ false).map
        Prod.fst =
      .ok [.StartObject true,
           .NumericalStringProperty "$id" 3 false,
           .StringProperty "rule" "phony" true,
           .StringProperty "command" "" true,
           .StartArrayProperty "dependencies" true,
           .StartObject false, .NumericalStringProperty "$ref" 1 false, .EndObject,
           .StartObject true, .NumericalStringProperty "$ref" 2 false, .EndObject,
           .EndArray,
           .StartArrayProperty "inputs" true,
           .String_ "obj1.o" false, .String_ "obj2.o" true,
           .EndArray,
           .StartArrayProperty "outputs" true,
           .EndArray,
           .EndObject] := by
  refine ⟨by decide, by decide, by decide⟩

/-- C8 as amended: in every reached session, a phony edge that has an id or is
in `edges_` is the producing edge of a registered root target. -/
theorem C8_phony_only_as_root_producer (g : Graph) (s : JsonGraphTool)
    (h : Reachable g s) (e : Nat) (hph : g.is_phony e = true)
    (hin : s.edge_idxs_ e ≠ none ∨ e ∈ s.edges_) :
    ∃ n ∈ s.root_nodes_, g.in_edge n = some e := by
  have hs := Reachable_Inv g s h
  have hmem : e ∈ s.edges_ := by
    rcases hin with h1 | h1
    · cases hid : s.edge_idxs_ e with
      | none => exact absurd hid h1
      | some i => exact (Inv_id_mem hs hid).1
    · exact h1
  exact Reachable_phony g s h e hmem hph

/-- C8 as amended, at the scenario graph after `AddRootTarget(objs)`. -/
theorem C8_witness :
    scenarioGraph.is_phony 1 = true ∧
    1 ∈ (sessionAfter scenarioGraph [1]).edges_ ∧
    ∃ n ∈ (sessionAfter scenarioGraph [1]).root_nodes_, scenarioGraph.in_edge n = some 1 :=
  ⟨by decide, by decide,
    C8_phony_only_as_root_producer scenarioGraph (sessionAfter scenarioGraph [1])
      scenario_objs_reachable 1 (by decide) (Or.inr (by decide))⟩

/-- C9: on a finite graph `FindNonPhonyDeps(e)` returns for every edge `e`;
every call-depth budget above the number of edges gives a result, the same
one; the recursive call of line 110 is made with `added` enlarged by an edge
that was not in it, which strictly lowers the number of edges outside
`added`. -/
theorem C9_FindNonPhonyDeps_terminates (g : Graph) (hg : g.WellFormed) (e : Nat) :
    (∃ deps, FindNonPhonyDeps g e = .ok deps) ∧
    (∀ fuel, g.edge_count < fuel →
      ∃ st, FindNonPhonyDepsRecursive g fuel e ([], []) = .ok st ∧
        FindNonPhonyDepsRecursive g (g.edge_count + 1) e ([], []) = .ok st) ∧
    (∀ fuel node result added p,
      g.in_edge node = some p → p ∉ added → g.is_phony p = true →
      FindNonPhonyDepsFromNodeRecursive g (fuel + 1) node (result, added) =
        FindNonPhonyDepsRecursive g fuel p (result, added.insert p) ∧
      added ⊆ added.insert p ∧ p ∈ added.insert p ∧
      unadded g (added.insert p) < unadded g added) := by
  have hfuel : ∀ fuel, g.edge_count < fuel →
      ∃ st, FindNonPhonyDepsRecursive g fuel e ([], []) = .ok st ∧
        FindNonPhonyDepsRecursive g (g.edge_count + 1) e ([], []) = .ok st := by
    intro fuel hf
    obtain ⟨st, hst⟩ := FindNonPhonyDepsRecursive_total g hg (g.edge_count + 1) e ([], [])
      (lt_of_le_of_lt (unadded_le g []) (Nat.lt_succ_self _))
    exact ⟨st, FindNonPhonyDepsRecursive_fuel_le g e _ _ _ _ hf hst, hst⟩
  refine ⟨FindNonPhonyDeps_total g hg e, hfuel, ?_⟩
  · intro fuel node result added p hin hp hph
    refine ⟨?_, ?_, ?_, unadded_insert_lt g (hg node p hin) hp⟩
    · rw [FromNode_succ, hin]
      simp only [if_neg hp, hph, if_true]
    · intro x hx
      exact List.mem_insert_iff.mpr (Or.inr hx)
    · exact List.mem_insert_iff.mpr (Or.inl rfl)

/-- C9 at the graph whose two phony edges alias each other. -/
theorem C9_witness :
    (∃ deps, FindNonPhonyDeps phonyLoopGraph 2 = .ok deps) ∧
    (∀ fuel, phonyLoopGraph.edge_count < fuel →
      ∃ st, FindNonPhonyDepsRecursive phonyLoopGraph fuel 2 ([], []) = .ok st ∧
        FindNonPhonyDepsRecursive phonyLoopGraph (phonyLoopGraph.edge_count + 1) 2 ([], [])
          = .ok st) ∧
    (∀ fuel node result added p,
      phonyLoopGraph.in_edge node = some p → p ∉ added → phonyLoopGraph.is_phony p = true →
      FindNonPhonyDepsFromNodeRecursive phonyLoopGraph (fuel + 1) node (result, added) =
        FindNonPhonyDepsRecursive phonyLoopGraph fuel p (result, added.insert p) ∧
      added ⊆ added.insert p ∧ p ∈ added.insert p ∧
      unadded phonyLoopGraph (added.insert p) < unadded phonyLoopGraph added) :=
  C9_FindNonPhonyDeps_terminates phonyLoopGraph phonyLoopGraph_wf 2

/-- C10 at the failing input: on the graph whose phony edges 0 and 1 alias
each other (`a` from `b`, `b` from `a`), `CollectNonPhonyInputs(a, inputs,
visited)` does not return within any call depth when neither `a` nor `b` is in
`visited` (the phony branch never inserts the node into `visited`), so the
input resolution of edge 2 and `Flush` do not return, while `FindNonPhonyDeps`
of the same edge returns. -/
theorem C10_CollectNonPhonyInputs_diverges :
    (∀ fuel inputs visited, 0 ∉ visited → 1 ∉ visited →
      CollectNonPhonyInputs phonyLoopGraph fuel 0 (inputs, visited) = .error .OutOfFuel) ∧
    (∀ fuel, (phonyLoopGraph.inputs_ 2).foldlM
      (fun st i => CollectNonPhonyInputs phonyLoopGraph fuel i st) ([], [])
        = .error .OutOfFuel) ∧
    TrueInputs phonyLoopGraph 2 = .error .OutOfFuel ∧
    FindNonPhonyDeps phonyLoopGraph 2 = .ok [] ∧
    (AddRootTargets phonyLoopGraph "" [2]).map (fun s => s.edges_) = .ok [2] ∧
    Flush phonyLoopGraph (sessionAfter phonyLoopGraph [2]) = .error .OutOfFuel := by
  have key : ∀ fuel inputs visited, 0 ∉ visited → 1 ∉ visited →
      CollectNonPhonyInputs phonyLoopGraph fuel 0 (inputs, visited) = .error .OutOfFuel ∧
      CollectNonPhonyInputs phonyLoopGraph fuel 1 (inputs, visited) = .error .OutOfFuel := by
    intro fuel
    induction fuel with
    | zero => intro inputs visited _ _; exact ⟨rfl, rfl⟩
    | succ fuel ih =>
      intro inputs visited hv0 hv1
      obtain ⟨ih0, ih1⟩ := ih inputs visited hv0 hv1
      have e0 : phonyLoopGraph.in_edge 0 = some 0 := rfl
      have e1 : phonyLoopGraph.in_edge 1 = some 1 := rfl
      have p0 : phonyLoopGraph.is_phony 0 = true := rfl
      have p1 : phonyLoopGraph.is_phony 1 = true := rfl
      have i0 : phonyLoopGraph.inputs_ 0 = [1] := rfl
      have i1 : phonyLoopGraph.inputs_ 1 = [0] := rfl
      constructor
      · rw [CollectNonPhonyInputs_succ, if_neg hv0, e0]
        simp only [p0, if_true, i0]
        rw [foldlM_except_cons, ih1]
      · rw [CollectNonPhonyInputs_succ, if_neg hv1, e1]
        simp only [p1, if_true, i1]
        rw [foldlM_except_cons, ih0]
  refine ⟨fun fuel inputs visited h0 h1 => (key fuel inputs visited h0 h1).1, ?_,
    by decide, by decide, by decide, by decide⟩
  intro fuel
  have h3 : phonyLoopGraph.inputs_ 2 = [0] := rfl
  rw [h3, foldlM_except_cons, (key fuel [] [] (by simp) (by simp)).1]

/-- C14: for every string `s`, `EscapeJson(s)` is the concatenation of the
escapes of its characters (`escapeOf`); it contains no carriage return and no
line feed; it is `s` itself when `s` contains none of the four escaped
characters; a tab is copied unchanged. -/
theorem C14_EscapeJson_characterised (s : String) :
    EscapeJson s = String.join (s.data.map escapeOf) ∧
    '\r' ∉ (EscapeJson s).data ∧ '\n' ∉ (EscapeJson s).data ∧
    ((∀ c ∈ s.data, c ≠ '\\' ∧ c ≠ '"' ∧ c ≠ '\r' ∧ c ≠ '\n') → EscapeJson s = s) ∧
    EscapeJson "a\tb" = "a\tb" := by
  have hmem : ∀ x ∈ (EscapeJson s).data, x ≠ '\r' ∧ x ≠ '\n' := by
    intro x hx
    rw [EscapeJson_data, List.mem_flatMap] at hx
    obtain ⟨c, _, hc⟩ := hx
    exact escapeOf_data_mem c x hc
  refine ⟨?_, fun h => (hmem _ h).1 rfl, fun h => (hmem _ h).2 rfl, ?_, by decide⟩
  · apply String.ext
    rw [EscapeJson_data]
    unfold String.join
    rw [join_fold_data]
    simp [List.flatMap_map]
  · intro h
    apply String.ext
    rw [EscapeJson_data]
    have : ∀ l : List Char, (∀ c ∈ l, c ≠ '\\' ∧ c ≠ '"' ∧ c ≠ '\r' ∧ c ≠ '\n') →
        l.flatMap (fun c => (escapeOf c).data) = l := by
      intro l
      induction l with
      | nil => intro _; rfl
      | cons c l ih =>
        intro hl
        rw [List.flatMap_cons, ih (fun x hx => hl x (List.mem_cons_of_mem _ hx))]
        obtain ⟨h1, h2, h3, h4⟩ := hl c (List.mem_cons_self _ _)
        simp [escapeOf, h1, h2, h3, h4, String.singleton]
    exact this s.data h

/-- C14 at the string `a"b` followed by a line feed, and at the string `abc`,
which has none of the four characters. -/
theorem C14_witness :
    EscapeJson "a\"b\n" = "a\\\"b\\n" ∧ EscapeJson "abc" = "abc" :=
  ⟨by decide,
    (C14_EscapeJson_characterised "abc").2.2.2.1 (by decide)⟩

/-- C15: the calls `WriteOutputs` makes are one `String` call per element of
`outputElements` (none for a phony edge; otherwise the output paths in order,
then the depfile when it is bound), in order; the call for the element at
position 0 has `continued = false` and every later one `continued = true`. -/
theorem C15_WriteOutputs_elements (g : Graph) (edge : Nat) :
    (∀ i, (WriteOutputs g edge)[i]? =
      ((outputElements g edge)[i]?).map
        (fun p => JsonCall.String_ p (if i = 0 then false else true))) ∧
    (g.is_phony edge = true → WriteOutputs g edge = []) ∧
    (g.is_phony edge = false → g.outputs_ edge = [] → g.GetBinding edge "depfile" ≠ "" →
      WriteOutputs g edge = [.String_ (g.GetBinding edge "depfile") false]) := by
  refine ⟨?_, ?_, ?_⟩
  · intro i
    rw [WriteOutputs_eq, WriteStrings_getElem?]
  · intro h
    simp [WriteOutputs, h]
  · intro h1 h2 h3
    simp [WriteOutputs, h1, h2, h3, WriteStrings]

/-- C16 at the failing input: on the graph whose phony edges 0 and 1 alias
each other, `AddRootTarget(out)` returns and the root list is `[out]`, but the
input resolution of edge 2 (`out`) returns within no call depth, so `Flush`
does not return and writes no `Targets` entry, where the claim has exactly one.
Where the resolution returns the claim holds: on every finite graph whose
phony edges form no cycle, after `AddRootTarget` calls on `nodes` the root
list is `nodes` (call order, duplicates kept) and `Flush` returns with exactly
one `Targets` entry per call, in that order, named by the path of the node; on
the scenario graph the calls `objs`, `app`, `objs` give three entries. -/
theorem C16_no_targets_after_phony_cycle :
    (AddRootTargets phonyLoopGraph "" [2]).map (fun s => s.root_nodes_) = .ok [2] ∧
    (∀ fuel, (phonyLoopGraph.inputs_ 2).foldlM
      (fun st i => CollectNonPhonyInputs phonyLoopGraph fuel i st) ([], [])
        = .error .OutOfFuel) ∧
    WriteAllInputs phonyLoopGraph 2 = .error .OutOfFuel ∧
    Flush phonyLoopGraph (sessionAfter phonyLoopGraph [2]) = .error .OutOfFuel ∧
    FlushText phonyLoopGraph (sessionAfter phonyLoopGraph [2]) = .error .OutOfFuel ∧
    (∀ (g : Graph) (build_dir : String) (nodes : List Nat) (s : JsonGraphTool),
      g.WellFormed → PhonyAcyclic g → AddRootTargets g build_dir nodes = .ok s →
      s.root_nodes_ = nodes ∧
      ∃ node_calls,
        Flush g s = .ok
          ([.StartObject false, .StartObjectProperty "Graph" false,
            .StartArrayProperty "Nodes" false]
          ++ node_calls
          ++ [.EndArray, .StartArrayProperty "Targets" true]
          ++ targetEntries (nodes.map (fun n => (g.path n, rootRef g s.edge_idxs_ n))) true
          ++ [.EndArray, .EndObject, .StringProperty "FailureReason" "" true,
              .EndObject])) ∧
    (AddRootTargets scenarioGraph "" [1, 0, 1]).map (fun s => s.root_nodes_)
      = .ok [1, 0, 1] ∧
    ∃ node_calls,
      Flush scenarioGraph (sessionAfter scenarioGraph [1, 0, 1]) = .ok
        ([.StartObject false, .StartObjectProperty "Graph" false,
          .StartArrayProperty "Nodes" false]
        ++ node_calls
        ++ [.EndArray, .StartArrayProperty "Targets" true]
        ++ targetEntries [("objs", 3), ("app", 4), ("objs", 3)] true
        ++ [.EndArray, .EndObject, .StringProperty "FailureReason" "" true, .EndObject]) := by
  refine ⟨by decide, ?_, by decide, by decide, by decide, ?_, by decide, ?_⟩
  · intro fuel
    have h3 : phonyLoopGraph.inputs_ 2 = [0] := rfl
    rw [h3, foldlM_except_cons, (phonyLoop_collect_diverges fuel [] [] (by simp) (by simp)).1]
  · intro g build_dir nodes s hg hac h
    exact Flush_targets g hg hac build_dir nodes s h
  · obtain ⟨_, nc, hc⟩ := Flush_targets scenarioGraph scenarioGraph_wf scenarioGraph_acyclic
      "" [1, 0, 1] (sessionAfter scenarioGraph [1, 0, 1]) rfl
    refine ⟨nc, ?_⟩
    rw [hc]
    rfl

/-- C15 at the edge `ar` of `rspGraph` (one output and a depfile), at its edge
`scan` (no outputs, a depfile) and at the phony edge of the scenario graph. -/
theorem C15_witness :
    WriteOutputs rspGraph 0 = [.String_ "lib.a" false, .String_ "lib.d" true] ∧
    WriteOutputs rspGraph 1 = [.String_ "scan.d" false] ∧
    WriteOutputs scenarioGraph 1 = [] :=
  ⟨by decide,
    (C15_WriteOutputs_elements rspGraph 1).2.2 (by decide) (by decide) (by decide),
    (C15_WriteOutputs_elements scenarioGraph 1).2.1 (by decide)⟩

/-- C20 at the failing input: on the scenario graph the source file `src1.c`
(node 4) has no producing edge, and `AddRootTarget(src1.c)` on a fresh session
does not return: line 31 passes the null pointer to `TopoAddEdge`, whose line
46 reads `edge->inputs_`.  The sibling `FindNonPhonyDepsFromNodeRecursive`
tests `!in` and returns for the same node. -/
theorem C20_source_root_dereferences_null :
    scenarioGraph.in_edge 4 = none ∧
    (JsonGraphTool.new "").edge_idxs_ = (fun _ => none) ∧
    (AddRootTarget scenarioGraph (JsonGraphTool.new "") 4).map (fun s => s.root_nodes_)
      = .error .NullDeref ∧
    (AddRootTarget scenarioGraph (sessionAfter scenarioGraph [0]) 4).map
      (fun s => s.root_nodes_) = .error .NullDeref ∧
    FindNonPhonyDepsFromNodeRecursive scenarioGraph 1 4 ([], []) = .ok ([], []) := by
  refine ⟨by decide, rfl, by decide, by decide, by decide⟩

/-- C17 fails as stated: on the graph of two edges that depend on each other,
after `AddRootTarget(a.out)` on a fresh session (the call detects the cycle)
`visited_edges_` holds the edges 1 and 0; a further `AddRootTarget(a.out)`
starts with that set. -/
theorem C17_counterexample :
    (JsonGraphTool.new "").visited_edges_ = [] ∧
    (AddRootTargetSignal cycleGraph (JsonGraphTool.new "") 0).map
      (fun p => (p.1, p.2.visited_edges_)) = .ok (1, [1, 0]) ∧
    (AddRootTarget cycleGraph (JsonGraphTool.new "") 0).map
      (fun s => s.visited_edges_) = .ok [1, 0] ∧
    (sessionAfter cycleGraph [0]).visited_edges_ = [1, 0] := by
  refine ⟨rfl, by decide, by decide, by decide⟩

/-- C17 as amended: for a call `AddRootTarget(node)` in a reached session that
returns, (1) when the producing edge of `node` already has an id, the call
leaves `visited_edges_` unchanged and reports no cycle; (2) otherwise
`TopoAddEdge` runs from the session with `visited_edges_` cleared, whatever it
held, and when it returns 0 the set is empty after the call; (3) so a call that
starts with an empty set and detects no cycle ends with an empty set. -/
theorem C17_guard_cleared_per_traversal (g : Graph) (s : JsonGraphTool)
    (hs : Reachable g s) (node e : Nat) (hin : g.in_edge node = some e)
    (r : Int) (s1 : JsonGraphTool)
    (h : AddRootTargetSignal g s node = .ok (r, s1)) :
    ((s.edge_idxs_ e).isSome → s1.visited_edges_ = s.visited_edges_ ∧ r = 0) ∧
    ((s.edge_idxs_ e).isSome = false →
      TopoAddEdge g (g.edge_count + 1) e
        { s with root_nodes_ := s.root_nodes_ ++ [node], visited_edges_ := [] }
          = .ok (r, s1) ∧
      (r = 0 → s1.visited_edges_ = [])) ∧
    (r = 0 → s.visited_edges_ = [] → s1.visited_edges_ = []) := by
  have hinv := Reachable_Inv g s hs
  unfold AddRootTargetSignal at h
  rw [hin] at h
  simp only at h
  by_cases hid : (s.edge_idxs_ e).isSome
  · rw [if_pos hid] at h
    cases h
    refine ⟨fun _ => ⟨rfl, rfl⟩, fun hc => ?_, fun _ hv => hv⟩
    rw [hid] at hc
    cases hc
  · rw [if_neg hid] at h
    have post := TopoAddEdge_spec g _ e _ r s1
      (⟨hinv.last, hinv.nodup, hinv.ids, hinv.deps_ok, hinv.topo⟩ :
        Inv g { s with root_nodes_ := s.root_nodes_ ++ [node], visited_edges_ := [] }) h
    refine ⟨fun hc => absurd hc hid, fun _ => ⟨h, fun hr => (post.done hr).2⟩,
      fun hr _ => (post.done hr).2⟩

/-- C17 as amended, at the scenario graph: `AddRootTarget(app)` on a fresh
session. -/
theorem C17_witness :
    (((JsonGraphTool.new "").edge_idxs_ 0).isSome →
      (sessionAfter scenarioGraph [0]).visited_edges_ = (JsonGraphTool.new "").visited_edges_
        ∧ (0 : Int) = 0) ∧
    (((JsonGraphTool.new "").edge_idxs_ 0).isSome = false →
      TopoAddEdge scenarioGraph (scenarioGraph.edge_count + 1) 0
        { JsonGraphTool.new "" with
          root_nodes_ := (JsonGraphTool.new "").root_nodes_ ++ [0], visited_edges_ := [] }
          = .ok (0, sessionAfter scenarioGraph [0]) ∧
      ((0 : Int) = 0 → (sessionAfter scenarioGraph [0]).visited_edges_ = [])) ∧
    ((0 : Int) = 0 → (JsonGraphTool.new "").visited_edges_ = [] →
      (sessionAfter scenarioGraph [0]).visited_edges_ = []) :=
  C17_guard_cleared_per_traversal scenarioGraph (JsonGraphTool.new "")
    (Reachable.init "") 0 0 rfl 0 (sessionAfter scenarioGraph [0]) rfl

/-- C18: on a finite graph, in every reached session and for every edge `e`
of the graph, `TopoAddEdge(e)` started with an empty cycle-guard set returns,
with 0 or 1; it returns 1 exactly when a cycle of the phony-resolved
dependency relation is reachable from `e`; when it returns 0, `e` and every
edge reachable from `e` have an id. -/
theorem C18_TopoAddEdge_detects_cycles (g : Graph) (hg : g.WellFormed)
    (s : JsonGraphTool) (hs : Reachable g s) (e : Nat) (he : e < g.edge_count) :
    ∃ r s1,
      TopoAddEdge g (g.edge_count + 1) e { s with visited_edges_ := [] } = .ok (r, s1) ∧
      (r = 0 ∨ r = 1) ∧
      (r = 1 ↔ CycleReachable g e) ∧
      (r = 0 → ∀ x, Relation.ReflTransGen (Dep g) e x → (s1.edge_idxs_ x).isSome) := by
  have hinv := Reachable_Inv g s hs
  have hinv0 : Inv g { s with visited_edges_ := [] } :=
    ⟨hinv.last, hinv.nodup, hinv.ids, hinv.deps_ok, hinv.topo⟩
  obtain ⟨r, s1, h⟩ := TopoAddEdge_total g hg (g.edge_count + 1) e _ hinv0 he
    (lt_of_le_of_lt (unadded_le g []) (Nat.lt_succ_self _))
  have post := TopoAddEdge_spec g _ e _ r s1 hinv0 h
  have hreach : r = 0 → ∀ x, Relation.ReflTransGen (Dep g) e x →
      ∃ ie ix, s1.edge_idxs_ e = some ie ∧ s1.edge_idxs_ x = some ix ∧ ix ≤ ie := by
    intro hr x hx
    obtain ⟨ie, hie⟩ := Option.isSome_iff_exists.mp (post.done hr).1
    obtain ⟨ix, hix, hle⟩ := Inv_reflTransGen_le post.inv hx ie hie
    exact ⟨ie, ix, hie, hix, hle⟩
  refine ⟨r, s1, h, post.ret, ⟨?_, ?_⟩, ?_⟩
  · intro hr
    exact TopoAddEdge_cycle g _ e _ r s1 hinv0 (by intro v hv; cases hv) h
      (by rw [hr]; decide)
  · intro hc
    rcases post.ret with hr | hr
    · exfalso
      obtain ⟨c, hec, hcc⟩ := hc
      obtain ⟨_, ic, _, hic, _⟩ := hreach hr c hec
      obtain ⟨ic2, hic2, hlt⟩ := Inv_transGen_lt post.inv hcc ic hic
      rw [hic] at hic2
      cases hic2
      exact lt_irrefl _ hlt
    · exact hr
  · intro hr x hx
    obtain ⟨_, ix, _, hix, _⟩ := hreach hr x hx
    rw [hix]
    rfl

/-- C18 at the graph of two edges that depend on each other (edge 0, after
`AddRootTarget(a.out)`). -/
theorem C18_witness :
    ∃ r s1,
      TopoAddEdge cycleGraph (cycleGraph.edge_count + 1) 0
        { sessionAfter cycleGraph [0] with visited_edges_ := [] } = .ok (r, s1) ∧
      (r = 0 ∨ r = 1) ∧
      (r = 1 ↔ CycleReachable cycleGraph 0) ∧
      (r = 0 → ∀ x, Relation.ReflTransGen (Dep cycleGraph) 0 x → (s1.edge_idxs_ x).isSome) :=
  C18_TopoAddEdge_detects_cycles cycleGraph cycleGraph_wf (sessionAfter cycleGraph [0])
    cycle_reachable 0 (by decide)

/-- C12: on a finite graph whose phony edges form no cycle, the input list of
an edge `e` (the `true_inputs` vector of `WriteAllInputs`) is the
first-occurrence deduplication of the naive expansion `naiveInputs`, which
returns; the list has no duplicates and each of its nodes has no producing
edge or a non-phony one; `WriteAllInputs` writes the paths of the list. -/
theorem C12_TrueInputs_refines_naive_expansion (g : Graph) (hg : g.WellFormed)
    (hac : PhonyAcyclic g) (e : Nat) :
    ∃ l, naiveInputs g e = .ok l ∧
      TrueInputs g e = .ok (dedupFirst l) ∧
      WriteAllInputs g e = .ok (WriteStrings ((dedupFirst l).map g.path) false) ∧
      (dedupFirst l).Nodup ∧
      ∀ n ∈ dedupFirst l,
        g.in_edge n = none ∨ ∃ p, g.in_edge n = some p ∧ g.is_phony p = false := by
  obtain ⟨l, hl⟩ := naiveInputs_total g hg hac e
  obtain ⟨h1, h2⟩ := TrueInputs_refines g e l hl
  refine ⟨l, hl, h1, ?_, dedupInto_nodup l [] List.nodup_nil, ?_⟩
  · unfold WriteAllInputs
    rw [h1]
  · intro n hn
    cases hin : g.in_edge n with
    | none => exact Or.inl rfl
    | some p => exact Or.inr ⟨p, rfl, h2 n hn p hin⟩

/-- C12 at the graph with nested phony aliases (edge `link`). -/
theorem C12_witness :
    ∃ l, naiveInputs aliasGraph 0 = .ok l ∧
      TrueInputs aliasGraph 0 = .ok (dedupFirst l) ∧
      WriteAllInputs aliasGraph 0 = .ok (WriteStrings ((dedupFirst l).map aliasGraph.path) false) ∧
      (dedupFirst l).Nodup ∧
      ∀ n ∈ dedupFirst l,
        aliasGraph.in_edge n = none ∨
          ∃ p, aliasGraph.in_edge n = some p ∧ aliasGraph.is_phony p = false :=
  C12_TrueInputs_refines_naive_expansion aliasGraph aliasGraph_wf aliasGraph_acyclic 0

/-- C11: on a finite graph whose phony edges form no cycle,
`FindNonPhonyDeps(e)` is the first-occurrence deduplication of the naive
expansion `naiveDeps`, which returns; the result has no duplicates and
contains no phony edge. -/
theorem C11_FindNonPhonyDeps_refines_naive_expansion (g : Graph) (hg : g.WellFormed)
    (hac : PhonyAcyclic g) (e : Nat) :
    ∃ l, naiveDeps g e = .ok l ∧
      FindNonPhonyDeps g e = .ok (dedupFirst l) ∧
      (dedupFirst l).Nodup ∧
      ∀ d ∈ dedupFirst l, g.is_phony d = false := by
  obtain ⟨ln, hln⟩ := naiveInputs_total g hg hac e
  have hl := naiveDeps_of_naiveInputs g e ln hln
  obtain ⟨deps, hdeps⟩ := FindNonPhonyDeps_total g hg e
  have heq := FindNonPhonyDeps_refines g hac e _ deps hl hdeps
  subst heq
  exact ⟨_, hl, hdeps, dedupInto_nodup _ [] List.nodup_nil,
    FindNonPhonyDeps_nonphony g e _ hdeps⟩

/-- C11 at the graph with nested phony aliases (edge `link`): the naive
expansion is `[3, 4, 4, 3, 4, 3]` and `FindNonPhonyDeps` gives `[3, 4]`. -/
theorem C11_witness :
    naiveDeps aliasGraph 0 = .ok [3, 4, 4, 3, 4, 3] ∧
    FindNonPhonyDeps aliasGraph 0 = .ok [3, 4] ∧
    ∃ l, naiveDeps aliasGraph 0 = .ok l ∧
      FindNonPhonyDeps aliasGraph 0 = .ok (dedupFirst l) ∧
      (dedupFirst l).Nodup ∧
      ∀ d ∈ dedupFirst l, aliasGraph.is_phony d = false :=
  ⟨by decide, by decide,
    C11_FindNonPhonyDeps_refines_naive_expansion aliasGraph aliasGraph_wf
      aliasGraph_acyclic 0⟩

/-- C19: on a finite graph whose phony edges form no cycle, for every edge
`e` both resolvers return, and `FindNonPhonyDeps(e)` is the first-occurrence
deduplication of the producing edges of the nodes of the input list of `e`,
in order; every dependency is the producer of a listed input and the producer
of every listed input is a dependency. -/
theorem C19_resolvers_agree (g : Graph) (hg : g.WellFormed) (hac : PhonyAcyclic g)
    (e : Nat) :
    ∃ ins deps, TrueInputs g e = .ok ins ∧ FindNonPhonyDeps g e = .ok deps ∧
      deps = dedupFirst (ins.filterMap g.in_edge) ∧
      (∀ d ∈ deps, ∃ n ∈ ins, g.in_edge n = some d) ∧
      (∀ n ∈ ins, ∀ p, g.in_edge n = some p → p ∈ deps) := by
  obtain ⟨ln, hln⟩ := naiveInputs_total g hg hac e
  have hl := naiveDeps_of_naiveInputs g e ln hln
  obtain ⟨deps, hdeps⟩ := FindNonPhonyDeps_total g hg e
  have heq := FindNonPhonyDeps_refines g hac e _ deps hl hdeps
  obtain ⟨hins, _⟩ := TrueInputs_refines g e ln hln
  have hd : deps = dedupFirst ((dedupFirst ln).filterMap g.in_edge) := by
    rw [dedupFirst_filterMap]; exact heq
  refine ⟨dedupFirst ln, deps, hins, hdeps, hd, ?_, ?_⟩
  · intro d hdm
    rw [hd] at hdm
    unfold dedupFirst at hdm
    rw [mem_dedupInto] at hdm
    rcases hdm with h | h
    · cases h
    · rw [List.mem_filterMap] at h
      exact h
  · intro n hn p hp
    rw [hd]
    unfold dedupFirst
    rw [mem_dedupInto]
    right
    rw [List.mem_filterMap]
    exact ⟨n, hn, hp⟩

/-- C19 at the graph with nested phony aliases (edge `link`). -/
theorem C19_witness :
    TrueInputs aliasGraph 0 = .ok [3, 4, 6] ∧
    ∃ ins deps, TrueInputs aliasGraph 0 = .ok ins ∧ FindNonPhonyDeps aliasGraph 0 = .ok deps ∧
      deps = dedupFirst (ins.filterMap aliasGraph.in_edge) ∧
      (∀ d ∈ deps, ∃ n ∈ ins, aliasGraph.in_edge n = some d) ∧
      (∀ n ∈ ins, ∀ p, aliasGraph.in_edge n = some p → p ∈ deps) :=
  ⟨by decide, C19_resolvers_agree aliasGraph aliasGraph_wf aliasGraph_acyclic 0⟩

end Ninja
